import Mathlib

/-!
Verification development for the collaborative-editing core of the
isolated-block-editor repository: the tree codec (`updateBlocksDoc`,
`updateCommentsDoc`, `updatePostDoc`, `postDocToObject` and friends from
`algorithms/yjs.js`), the wire byte-array codec (`encodeArray` /
`decodeArray`), the sync protocol state machine (`createDocument` in
`yjs-doc.js`) and the undo/redo coordinator.

Replicated `Y.Map`s are modelled as insertion-ordered association lists
(`set` of a fresh key appends, `set` of an existing key updates in place,
which matches local-only edit histories); `Y.Array`s are plain lists.  Every
mutating codec operation additionally returns the number of underlying
store writes it performed (a `Y.Map.set`, a `Y.Map.delete` of a present
key, or a `Y.Array.delete`/`insert` of nonzero length), which is what the
write-suppression properties are about.  The CRDT merge internals (state
vectors, binary updates, the undo stack's push/pop engine) are out of
scope per the specification and appear as abstract parameters.
-/

/-- Lookup in an insertion-ordered association list (models `Y.Map.get`). -/
def alookup {β : Type} : List (String × β) → String → Option β
  | [], _ => none
  | (k', v) :: rest, k => if k' = k then some v else alookup rest k

/-- Key-presence test (models `Y.Map.has`). -/
def ahas {β : Type} (l : List (String × β)) (k : String) : Bool :=
  (alookup l k).isSome

/-- Models `Y.Map.set`: update in place if the key exists, else append (JS `Map`
insertion order). -/
def aset {β : Type} : List (String × β) → String → β → List (String × β)
  | [], k, v => [(k, v)]
  | (k', v') :: rest, k, v =>
    if k' = k then (k, v) :: rest else (k', v') :: aset rest k v

/-- Models `Y.Map.delete`: remove the entry of a key (keys are unique). -/
def adelete {β : Type} : List (String × β) → String → List (String × β)
  | [], _ => []
  | (k', v') :: rest, k =>
    if k' = k then rest else (k', v') :: adelete rest k

/-! ## Diff Engine

Modelled from the spec: the `./diff` module (`simpleDiffArray`) that
`updateBlocksDoc` imports is not part of the provided sources; §4.1 of the
specification states its contract: the largest common prefix, then,
independently, the largest common suffix that does not overlap the prefix;
`index` = prefix length, `remove` = elements of the old sequence between
prefix and suffix, `insert` = elements of the new sequence between prefix
and suffix. -/

structure SimpleDiff (γ : Type) where
  index : Nat
  remove : Nat
  insert : List γ
  deriving DecidableEq, Repr

/-- Length of the largest common prefix of two lists. -/
def commonPrefixLen {γ : Type} [DecidableEq γ] : List γ → List γ → Nat
  | a :: as, b :: bs => if a = b then commonPrefixLen as bs + 1 else 0
  | _, _ => 0

/-- Modelled from the spec: `simpleDiffArray` (Diff Engine, §4.1). -/
def simpleDiffArray {γ : Type} [DecidableEq γ] (oldArr newArr : List γ) :
    SimpleDiff γ :=
  let left := commonPrefixLen oldArr newArr
  let right := min (commonPrefixLen oldArr.reverse newArr.reverse)
      (min oldArr.length newArr.length - left)
  ⟨left, oldArr.length - left - right, (newArr.take (newArr.length - right)).drop left⟩

/-! ## Tree Codec: block tree (`algorithms/yjs.js`) -/

/-- A Gutenberg block: `{ clientId, ...attributes, innerBlocks }`. The
attributes other than `clientId` are abstracted into one value of a type
`α` with value equality (lodash `isEqual`). -/
inductive Block (α : Type) : Type where
  | mk (clientId : String) (attrs : α) (innerBlocks : List (Block α))

def Block.clientId {α : Type} : Block α → String
  | .mk c _ _ => c

def Block.attrs {α : Type} : Block α → α
  | .mk _ a _ => a

def Block.innerBlocks {α : Type} : Block α → List (Block α)
  | .mk _ _ i => i

/-- What `updateBlocksDoc` stores in `byClientId`: the block minus its
`innerBlocks` (the rest-spread `{ innerBlocks, ...block } = _block`). -/
structure BlockData (α : Type) where
  clientId : String
  attrs : α
  deriving DecidableEq, Repr

def Block.data {α : Type} (b : Block α) : BlockData α :=
  ⟨b.clientId, b.attrs⟩

/-- The `yDocBlocks` map: keys `order` (a map from parent clientId to a
`Y.Array` of child clientIds) and `byClientId` (the shared flat content
map). `none` models the key being absent (`!yDocBlocks.has(...)`). -/
structure BlocksDoc (α : Type) where
  order : Option (List (String × List String))
  byClientId : Option (List (String × BlockData α))
  deriving DecidableEq

def emptyBlocksDoc {α : Type} : BlocksDoc α := ⟨none, none⟩

/-- Models `Y.Array.delete(index, remove)` followed by `insert(index, ins)`. -/
def spliceList {γ : Type} (l : List γ) (index remove : Nat) (ins : List γ) :
    List γ :=
  l.take index ++ ins ++ l.drop (index + remove)

mutual

/-- Models `updateBlocksDoc(yDocBlocks, blocks, clientId)`: one encode level.
Returns the updated doc together with the number of store writes.  Note
that the content-map GC is driven by `currentOrder.slice(orderDiff.index,
orderDiff.remove)` — JS `slice` takes an end *index*, so this is
`(currentOrder.take remove).drop index`, faithfully reproduced here. -/
def updateBlocksDoc {α : Type} [DecidableEq α] (d : BlocksDoc α)
    (blocks : List (Block α)) (clientId : String) : BlocksDoc α × Nat :=
  -- if (!yDocBlocks.has('order')) yDocBlocks.set('order', new yjs.Map())
  let (ord₀, w₁) : List (String × List String) × Nat :=
    match d.order with
    | none => ([], 1)
    | some o => (o, 0)
  -- if (!order.has(clientId)) order.set(clientId, new yjs.Array())
  let (ord₁, w₂) : List (String × List String) × Nat :=
    if ahas ord₀ clientId then (ord₀, 0) else (aset ord₀ clientId [], 1)
  -- if (!yDocBlocks.has('byClientId')) yDocBlocks.set('byClientId', new Map)
  let (by₀, w₃) : List (String × BlockData α) × Nat :=
    match d.byClientId with
    | none => ([], 1)
    | some b => (b, 0)
  let currentOrder := (alookup ord₁ clientId).getD []
  let orderDiff := simpleDiffArray currentOrder (blocks.map Block.clientId)
  -- currentOrder.slice(index, remove).forEach(id => !insert.includes(id)
  --   && byClientId.delete(id))   [slice end-index behaviour kept]
  let sliceWindow := (currentOrder.take orderDiff.remove).drop orderDiff.index
  let (by₁, w₄) : List (String × BlockData α) × Nat :=
    sliceWindow.foldl
      (fun acc c =>
        if c ∈ orderDiff.insert then acc
        else if ahas acc.1 c then (adelete acc.1 c, acc.2 + 1) else acc)
      (by₀, 0)
  -- order.delete(index, remove); order.insert(index, insert)
  let newOrder := spliceList currentOrder orderDiff.index orderDiff.remove
      orderDiff.insert
  let w₅ := (if orderDiff.remove ≠ 0 then 1 else 0) +
      (if orderDiff.insert ≠ [] then 1 else 0)
  let d₁ : BlocksDoc α := ⟨some (aset ord₁ clientId newOrder), some by₁⟩
  let (d₂, w₆) := updateBlocksEach d₁ blocks
  (d₂, w₁ + w₂ + w₃ + w₄ + w₅ + w₆)
termination_by (sizeOf blocks, 1)

/-- The `for (const _block of blocks)` loop of `updateBlocksDoc`: write the
block's content entry when absent or different, then recurse into its
inner blocks keyed by its clientId. -/
def updateBlocksEach {α : Type} [DecidableEq α] (d : BlocksDoc α) :
    List (Block α) → BlocksDoc α × Nat
  | [] => (d, 0)
  | b :: rest =>
    let stored := d.byClientId.getD []
    -- if (!byClientId.has(id) || !isEqual(byClientId.get(id), block))
    let (d', w₁) : BlocksDoc α × Nat :=
      if alookup stored b.clientId = some b.data then (d, 0)
      else ({ d with byClientId := some (aset stored b.clientId b.data) }, 1)
    let (dInner, w₂) := updateBlocksDoc d' b.innerBlocks b.clientId
    let (dRest, w₃) := updateBlocksEach dInner rest
    (dRest, w₁ + w₂ + w₃)
termination_by bs => (sizeOf bs, 0)
decreasing_by
  · have h : sizeOf b.innerBlocks < sizeOf b := by
      cases b with
      | mk c a i => simp [Block.innerBlocks]
    apply Prod.Lex.left
    simp
    omega
  · apply Prod.Lex.left
    simp

end

/-- Models `blocksDocToArray(yDocBlocks, clientId)`: decode one level.  The JS
recursion has no termination guard (it diverges on a cyclic `order` map),
so the model takes explicit fuel; any fuel at least the tree height
computes the same result as the source on acyclic stores.  A missing
content entry decodes, as in JS (`{...undefined}`), to a block with no
fields, modelled by default values. -/
def blocksDocToArray {α : Type} [Inhabited α] (d : BlocksDoc α)
    (clientId : String) : Nat → List (Block α)
  | 0 => []
  | fuel + 1 =>
    match alookup (d.order.getD []) clientId with
    | none => []
    | some ids =>
      ids.map fun c =>
        match alookup (d.byClientId.getD []) c with
        | some data => .mk data.clientId data.attrs (blocksDocToArray d c fuel)
        | none => .mk "" default (blocksDocToArray d c fuel)

/-! ## Tree Codec: comments (`updateCommentsDoc` / `updateCommentRepliesDoc`) -/

/-- A local comment reply object. -/
structure Reply where
  _id : String
  content : String
  createdAt : Int
  authorId : String
  authorName : String
  deriving DecidableEq, Repr

/-- A local comment object. -/
structure Comment where
  _id : String
  type : String
  content : String
  createdAt : Int
  status : String
  start : Int
  «end» : Int
  authorId : String
  authorName : String
  replies : List Reply
  deriving DecidableEq, Repr

/-- The per-reply `Y.Map`: each field is `none` while never written
(JS `undefined`). -/
structure ReplyDoc where
  content : Option String
  createdAt : Option Int
  authorId : Option String
  authorName : Option String
  deriving DecidableEq, Repr

/-- The per-comment `Y.Map`. -/
structure CommentDoc where
  type : Option String
  content : Option String
  createdAt : Option Int
  status : Option String
  start : Option Int
  «end» : Option Int
  authorId : Option String
  authorName : Option String
  replies : Option (List (String × ReplyDoc))
  deriving DecidableEq

def emptyReplyDoc : ReplyDoc := ⟨none, none, none, none⟩

def emptyCommentDoc : CommentDoc :=
  ⟨none, none, none, none, none, none, none, none, none⟩

/-- One field write of the per-field writer:
`if (isNewDoc || currentDoc.get(field) !== value) currentDoc.set(field, value)`.
Returns the new stored value and 1 if a write happened. -/
def setField {β : Type} [DecidableEq β] (cur : Option β) (v : β)
    (isNewDoc : Bool) : Option β × Nat :=
  if isNewDoc || !(cur = some v : Bool) then (some v, 1) else (cur, 0)

/-- The body of the `replies.forEach` loop of `updateCommentRepliesDoc`. -/
def updateOneReply (rd : List (String × ReplyDoc)) (r : Reply) :
    List (String × ReplyDoc) × Nat :=
  let isNewDoc := !ahas rd r._id
  let (rd₁, w₀) :=
    if isNewDoc then (aset rd r._id emptyReplyDoc, 1) else (rd, 0)
  let cur := (alookup rd₁ r._id).getD emptyReplyDoc
  let (f₁, u₁) := setField cur.content r.content isNewDoc
  let (f₂, u₂) := setField cur.createdAt r.createdAt isNewDoc
  let (f₃, u₃) := setField cur.authorId r.authorId isNewDoc
  let (f₄, u₄) := setField cur.authorName r.authorName isNewDoc
  (aset rd₁ r._id ⟨f₁, f₂, f₃, f₄⟩, w₀ + u₁ + u₂ + u₃ + u₄)

/-- Models `updateCommentRepliesDoc(repliesDoc, replies)`. -/
def updateCommentRepliesDoc (rd : List (String × ReplyDoc)) :
    List Reply → List (String × ReplyDoc) × Nat
  | [] => (rd, 0)
  | r :: rest =>
    let (rd₁, w₁) := updateOneReply rd r
    let (rd₂, w₂) := updateCommentRepliesDoc rd₁ rest
    (rd₂, w₁ + w₂)

/-- The body of the `comments.forEach` loop of `updateCommentsDoc`. -/
def updateOneComment (cd : List (String × CommentDoc)) (c : Comment) :
    List (String × CommentDoc) × Nat :=
  let isNewDoc := !ahas cd c._id
  let (cd₁, w₀) :=
    if isNewDoc then (aset cd c._id emptyCommentDoc, 1) else (cd, 0)
  let cur := (alookup cd₁ c._id).getD emptyCommentDoc
  let (f₁, u₁) := setField cur.type c.type isNewDoc
  let (f₂, u₂) := setField cur.content c.content isNewDoc
  let (f₃, u₃) := setField cur.createdAt c.createdAt isNewDoc
  let (f₄, u₄) := setField cur.status c.status isNewDoc
  let (f₅, u₅) := setField cur.start c.start isNewDoc
  let (f₆, u₆) := setField cur.«end» c.«end» isNewDoc
  let (f₇, u₇) := setField cur.authorId c.authorId isNewDoc
  let (f₈, u₈) := setField cur.authorName c.authorName isNewDoc
  -- if (isNewDoc) currentDoc.set('replies', new yjs.Map())
  let (repl₀, w₉) :=
    if isNewDoc then (some ([] : List (String × ReplyDoc)), 1)
    else (cur.replies, 0)
  let (repl₁, w₁₀) := updateCommentRepliesDoc (repl₀.getD []) c.replies
  (aset cd₁ c._id ⟨f₁, f₂, f₃, f₄, f₅, f₆, f₇, f₈, some repl₁⟩,
    w₀ + u₁ + u₂ + u₃ + u₄ + u₅ + u₆ + u₇ + u₈ + w₉ + w₁₀)

/-- Models `updateCommentsDoc(commentsDoc, comments)` (`comments = []` default
covers a missing argument). -/
def updateCommentsDoc (cd : List (String × CommentDoc)) :
    List Comment → List (String × CommentDoc) × Nat
  | [] => (cd, 0)
  | c :: rest =>
    let (cd₁, w₁) := updateOneComment cd c
    let (cd₂, w₂) := updateCommentsDoc cd₁ rest
    (cd₂, w₁ + w₂)

/-- Decode one stored reply; missing fields decode to JS `undefined`,
modelled by default values. -/
def decodeReply (id : String) (d : ReplyDoc) : Reply :=
  ⟨id, d.content.getD "", d.createdAt.getD 0, d.authorId.getD "",
    d.authorName.getD ""⟩

/-- Stable insertion into a reply list ascending by `createdAt`; together
with `sortReplies` this models the stable JS
`sort((a, b) => a.createdAt - b.createdAt)`. -/
def insertReplySorted (r : Reply) : List Reply → List Reply
  | [] => [r]
  | x :: xs =>
    if x.createdAt < r.createdAt then x :: insertReplySorted r xs
    else r :: x :: xs

def sortReplies : List Reply → List Reply
  | [] => []
  | r :: rest => insertReplySorted r (sortReplies rest)

/-- Decode one stored comment (one entry of `commentsDocToArray`'s map). -/
def decodeComment (id : String) (d : CommentDoc) : Comment :=
  ⟨id, d.type.getD "", d.content.getD "", d.createdAt.getD 0,
    d.status.getD "", d.start.getD 0, d.«end».getD 0, d.authorId.getD "",
    d.authorName.getD "",
    sortReplies ((d.replies.getD []).map fun p => decodeReply p.1 p.2)⟩

/-- Models `commentsDocToArray(commentsDoc)`; a missing doc yields `[]`. -/
def commentsDocToArray (cd : Option (List (String × CommentDoc))) :
    List Comment :=
  match cd with
  | none => []
  | some entries => entries.map fun p => decodeComment p.1 p.2

/-! ## Tree Codec: post (`updatePostDoc` / `postDocToObject`) -/

/-- The `post` top-level map of the shared doc.  `title` is `none` while
never set (or explicitly set to JS `undefined`); `blocks` and `comments`
are `none` until their maps are created. -/
structure Store (α : Type) where
  title : Option String
  blocks : Option (BlocksDoc α)
  comments : Option (List (String × CommentDoc))
  deriving DecidableEq

def emptyStore {α : Type} : Store α := ⟨none, none, none⟩

/-- The argument of `updatePostDoc`: `newPost.title` may be absent (the
collaboration module calls `applyDataChanges({ blocks })` with no title),
and a missing `comments` hits `updateCommentsDoc`'s `[]` default, so it is
modelled as a plain list. -/
structure Post (α : Type) where
  title : Option String
  blocks : List (Block α)
  comments : List Comment

/-- Models `updatePostDoc(doc, newPost)`, returning the store writes count. -/
def updatePostDoc {α : Type} [DecidableEq α] (st : Store α) (p : Post α) :
    Store α × Nat :=
  -- if (postDoc.get('title') !== newPost.title) postDoc.set('title', ...)
  let (title₁, w₁) : Option String × Nat :=
    if st.title = p.title then (st.title, 0) else (p.title, 1)
  -- if (!postDoc.get('blocks', yjs.Map)) postDoc.set('blocks', new Map)
  let (bd₀, w₂) : BlocksDoc α × Nat :=
    match st.blocks with
    | none => (emptyBlocksDoc, 1)
    | some b => (b, 0)
  let (bd₁, w₃) := updateBlocksDoc bd₀ p.blocks ""
  -- if (!postDoc.get('comments', yjs.Map)) postDoc.set('comments', new Map)
  let (cd₀, w₄) : List (String × CommentDoc) × Nat :=
    match st.comments with
    | none => ([], 1)
    | some c => (c, 0)
  let (cd₁, w₅) := updateCommentsDoc cd₀ p.comments
  (⟨title₁, some bd₁, some cd₁⟩, w₁ + w₂ + w₃ + w₄ + w₅)

/-- The decoded post object returned by `postDocToObject`. -/
structure PostObject (α : Type) where
  title : String
  blocks : List (Block α)
  comments : List Comment

/-- Models `postDocToObject(doc)`; `fuel` bounds the block-decode recursion depth
(see `blocksDocToArray`). -/
def postDocToObject {α : Type} [Inhabited α] (st : Store α) (fuel : Nat) :
    PostObject α :=
  ⟨st.title.getD "",
    blocksDocToArray (st.blocks.getD emptyBlocksDoc) "" fuel,
    commentsDocToArray st.comments⟩

/-! ## Wire byte-array codec (`yjs-doc.js`)

`encodeArray = (array) => array.toString()` on a `Uint8Array` produces the
comma-separated decimal bytes; `decodeArray = (string) => new
Uint8Array(string.split(','))` splits on commas and coerces each piece
with JS number conversion (`Number('') = 0`, values wrapped mod 256).
JS strings are modelled as `List Char`. -/

def digitChar : Nat → Char
  | 0 => '0' | 1 => '1' | 2 => '2' | 3 => '3' | 4 => '4'
  | 5 => '5' | 6 => '6' | 7 => '7' | 8 => '8' | _ => '9'

/-- Decimal representation of one byte (JS `Number.prototype.toString`). -/
def toDecChars (n : Nat) : List Char :=
  if _h : n < 10 then [digitChar n]
  else toDecChars (n / 10) ++ [digitChar (n % 10)]
decreasing_by
  exact Nat.div_lt_self (by omega) (by omega)

/-- Models `array.toString()` of a `Uint8Array`: decimal bytes joined by commas. -/
def encodeArray (bytes : List Nat) : List Char :=
  List.intercalate [','] (bytes.map toDecChars)

/-- JS number coercion of a digit string (`Number('') = 0`). -/
def parseDec (s : List Char) : Nat :=
  s.foldl (fun n c => 10 * n + (c.toNat - 48)) 0

/-- Models `new Uint8Array(string.split(','))`: split on commas (JS `split` is
`List.splitOn`, with `'' → ['']`), each piece coerced to a number and
stored as a byte (mod 256). -/
def decodeArray (s : List Char) : List Nat :=
  (s.splitOn ',').map fun t => parseDec t % 256

/-! ## Sync Protocol State Machine (`createDocument`, `yjs-doc.js`)

The session is instantiated as in `initYDoc`: `applyDataChanges :=
updatePostDoc` and `getData := postDocToObject` (concrete tree codec),
while the CRDT merge primitives (state vectors, incremental updates,
applying a remote update, the inverse operations applied by undo/redo)
are abstract parameters bundled in `CrdtOps`. -/

inductive ConnState : Type where
  | off | connecting | on
  deriving DecidableEq, Repr

/-- The `origin` value of a document update event: a client identity
string, JS `undefined`, or the `yjs.UndoManager` instance
(`origin instanceof yjs.UndoManager`). -/
inductive Origin : Type where
  | name (s : String)
  | undef
  | undoMgr
  deriving DecidableEq, Repr

/-- A protocol message (the `sendMessage`/`receiveMessage` payload).
Absent JS fields are `none` (for `isReply`, absent and `false` are
indistinguishable to the protocol, which only tests truthiness). -/
structure WireMsg where
  protocol : String
  messageType : String
  origin : Option String
  destination : Option String
  stateVector : List Char
  update : List Char
  isReply : Bool
  deriving DecidableEq, Repr

def syncUpdateMsg (u : List Char) : WireMsg :=
  ⟨"yjs1", "syncUpdate", none, none, [], u, false⟩

def sync1Msg (sv : List Char) (origin : String) (destination : Option String)
    (isReply : Bool) : WireMsg :=
  ⟨"yjs1", "sync1", some origin, destination, sv, [], isReply⟩

def sync2Msg (u : List Char) (destination : Option String) : WireMsg :=
  ⟨"yjs1", "sync2", none, destination, [], u, false⟩

/-- The editor selection handed to `getSelection`/`setSelection`; the
protocol only tests the truthiness of `selection?.start`, so the two
endpoints stay abstract. -/
structure EditorSelection where
  start : Option String
  «end» : Option String
  deriving DecidableEq, Repr

/-- An undo-stack item with its metadata map; `meta` holds the
`'caret-location'` entry once the `stack-item-added` handler ran. -/
structure StackItem where
  meta : Option EditorSelection
  deriving DecidableEq, Repr

/-- Modelled from the spec: the primitive layer's attributable undo stack
(§6, "construct an undo manager ... with stack-item-added/stack-item-popped
events and undo()/redo()/stack-length queries" — the `yjs.UndoManager`
internals are not part of the sources).  Stacks are arrays with the top at
the end (`at(-1)`); `undo()` pops the undo stack top and moves it to the
redo stack, `redo()` the reverse; a fresh tracked local change pushes onto
the undo stack and clears the redo stack. -/
structure UndoMgr where
  undoStack : List StackItem
  redoStack : List StackItem
  deriving DecidableEq, Repr

inductive PopType : Type where
  | undo | redo
  deriving DecidableEq, Repr

/-- The `stack-item-popped` handler of `setupUndoManagerOnReady`: pick the
reference item (`event.type === 'undo' ? undoManager?.undoStack.at(-1) :
event.stackItem`), read its `'caret-location'` meta, and return the
selection passed to `setSelection` — `none` when restoration is skipped
(`if (selection?.start)`). -/
def stackItemPopped (mgrAfter : UndoMgr) (t : PopType) (popped : StackItem) :
    Option EditorSelection :=
  let ref : Option StackItem :=
    match t with
    | .undo => mgrAfter.undoStack.getLast?
    | .redo => some popped
  match ref with
  | some it =>
    match it.meta with
    | some sel => if sel.start.isSome then some sel else none
    | none => none
  | none => none

/-- Models `undoManager.undo()`: pop the undo-stack top onto the redo stack and
fire `stack-item-popped` with type `'undo'`; returns the selection the
handler restores (`none`: `setSelection` not called). -/
def UndoMgr.undo (m : UndoMgr) : UndoMgr × Option EditorSelection :=
  match m.undoStack.getLast? with
  | none => (m, none)
  | some item =>
    let m' : UndoMgr := ⟨m.undoStack.dropLast, m.redoStack ++ [item]⟩
    (m', stackItemPopped m' .undo item)

/-- Models `undoManager.redo()`: pop the redo-stack top back onto the undo stack
and fire `stack-item-popped` with type `'redo'`. -/
def UndoMgr.redo (m : UndoMgr) : UndoMgr × Option EditorSelection :=
  match m.redoStack.getLast? with
  | none => (m, none)
  | some item =>
    let m' : UndoMgr := ⟨m.undoStack ++ [item], m.redoStack.dropLast⟩
    (m', stackItemPopped m' .redo item)

/-- The abstract CRDT primitives consumed by the state machine (§6): the
theorems below hold for every implementation of these. -/
structure CrdtOps (α : Type) where
  encodeStateVector : Store α → List Nat
  encodeStateAsUpdate : Store α → List Nat → List Nat
  applyUpdate : Store α → List Nat → Store α
  updateDelta : Store α → Store α → List Nat
  undoApply : Store α → Store α
  redoApply : Store α → Store α

/-- One client session: the closure state of `createDocument` plus the
observable effect logs (`outbox`: arguments of `sendMessage` in order;
`published`: decoded posts handed to the `onRemoteDataChange` listeners;
`setSelections`: arguments of `setSelection`). -/
structure Session (α : Type) where
  identity : String
  state : ConnState
  store : Store α
  undoManager : Option UndoMgr
  curSelection : EditorSelection
  outbox : List WireMsg
  published : List (PostObject α)
  setSelections : List EditorSelection

def initialSession {α : Type} (identity : String) (sel : EditorSelection) :
    Session α :=
  ⟨identity, .off, emptyStore, none, sel, [], [], []⟩

/-- Fuel for decoding inside the session: one more than the number of
order lists, which bounds the recursion depth on any acyclic store. -/
def decodeFuel {α : Type} (st : Store α) : Nat :=
  ((st.blocks.getD emptyBlocksDoc).order.getD []).length + 1

/-- The `doc.on('update', ...)` handler: broadcast a `syncUpdate` when the
origin is local (`origin === identity || origin instanceof UndoManager`)
and the state is `on`; publish the decoded post to the remote-data
listeners whenever `origin !== identity`. -/
def handleUpdate {α : Type} [DecidableEq α] [Inhabited α] (s : Session α)
    (origin : Origin) (updateBytes : List Nat) : Session α :=
  let isLocalOrigin := origin = Origin.name s.identity ∨ origin = Origin.undoMgr
  let s₁ :=
    if isLocalOrigin ∧ s.state = ConnState.on then
      { s with outbox := s.outbox ++ [syncUpdateMsg (encodeArray updateBytes)] }
    else s
  if origin ≠ Origin.name s.identity then
    { s₁ with published :=
        s₁.published ++ [postDocToObject s₁.store (decodeFuel s₁.store)] }
  else s₁

/-- Models `setupUndoManagerOnReady`: build the undo manager on the first
transition to `on`. -/
def setupUndoManagerOnReady {α : Type} (s : Session α) (newState : ConnState) :
    Session α :=
  if newState = ConnState.on ∧ s.undoManager = none then
    { s with undoManager := some ⟨[], []⟩ }
  else s

/-- Models `setState`: assign, then run the state listeners
(`setupUndoManagerOnReady` is registered from the start). -/
def setSessionState {α : Type} (s : Session α) (newState : ConnState) :
    Session α :=
  setupUndoManagerOnReady { s with state := newState } newState

/-- Models `doc.transact(() => f(doc), origin)`: run the batch; if it performed
any writes, the primitive layer fires one `update` event with that origin,
and — when the origin is tracked by a live undo manager — pushes an undo
stack item whose `stack-item-added` handler records `getSelection()` as
its caret location (a fresh tracked change also clears the redo stack). -/
def transact {α : Type} [DecidableEq α] [Inhabited α] (ops : CrdtOps α)
    (s : Session α) (origin : Origin) (f : Store α → Store α × Nat) :
    Session α :=
  let (st', w) := f s.store
  let s₁ := { s with store := st' }
  let s₂ :=
    if w > 0 ∧ origin = Origin.name s.identity then
      match s₁.undoManager with
      | some m =>
        let m' : UndoMgr := ⟨m.undoStack ++ [⟨some s₁.curSelection⟩], []⟩
        { s₁ with undoManager := some m' }
      | none => s₁
    else s₁
  if w > 0 then handleUpdate s₂ origin (ops.updateDelta s.store st') else s₂

/-- The returned object's `applyDataChanges(data)` method: throws
`'wrong state'` unless `on`, else encodes via the tree codec inside a
transaction attributed to this client's identity.  The second component
is the thrown value (`none`: returned normally). -/
def Session.applyDataChanges {α : Type} [DecidableEq α] [Inhabited α]
    (ops : CrdtOps α) (s : Session α) (data : Post α) :
    Session α × Option String :=
  if s.state ≠ ConnState.on then (s, some "wrong state")
  else (transact ops s (Origin.name s.identity) (fun st => updatePostDoc st data),
    none)

/-- The local `sync(destination, isReply)` helper: emit a `sync1` carrying
this client's encoded state vector. -/
def syncSend {α : Type} (ops : CrdtOps α) (s : Session α)
    (destination : Option String) (isReply : Bool) : Session α :=
  { s with outbox := s.outbox ++
      [sync1Msg (encodeArray (ops.encodeStateVector s.store)) s.identity
        destination isReply] }

/-- Models `connect()`: throws `'wrong state'` when already `on`, else
`setState('connecting'); sync()`. -/
def Session.connect {α : Type} (ops : CrdtOps α) (s : Session α) :
    Session α × Option String :=
  if s.state = ConnState.on then (s, some "wrong state")
  else (syncSend ops (setSessionState s ConnState.connecting) none false, none)

/-- Models `disconnect()`: `setState('off')`. -/
def Session.disconnect {α : Type} (s : Session α) : Session α :=
  setSessionState s ConnState.off

/-- Models `startSharing(data)`: throws when already `on`, else `setState('on')`
then `this.applyDataChanges(data)`. -/
def Session.startSharing {α : Type} [DecidableEq α] [Inhabited α]
    (ops : CrdtOps α) (s : Session α) (data : Post α) :
    Session α × Option String :=
  if s.state = ConnState.on then (s, some "wrong state")
  else Session.applyDataChanges ops (setSessionState s ConnState.on) data

/-- Models `content.destination && content.destination !== identity`: the message
carries a destination (a JS-truthy one: present and nonempty) that is not
this client. -/
def destIsOther (dest : Option String) (identity : String) : Bool :=
  match dest with
  | none => false
  | some d => !(d = "" : Bool) && !(d = identity : Bool)

def originOf : Option String → Origin
  | some s => Origin.name s
  | none => Origin.undef

/-- Apply a remote binary update (`yjs.applyUpdate(doc, u, origin)`): the
primitive layer fires an `update` event if the update changed the
document. -/
def applyRemoteUpdate {α : Type} [DecidableEq α] [Inhabited α]
    (ops : CrdtOps α) (s : Session α) (u : List Nat) (origin : Origin) :
    Session α :=
  let st' := ops.applyUpdate s.store u
  if st' = s.store then { s with store := st' }
  else handleUpdate { s with store := st' } origin u

/-- Models `receiveMessage(message)`: the protocol dispatcher.  The second
component is the thrown value (`throw 'wrong protocol'`). -/
def Session.receiveMessage {α : Type} [DecidableEq α] [Inhabited α]
    (ops : CrdtOps α) (s : Session α) (m : WireMsg) :
    Session α × Option String :=
  if m.protocol ≠ "yjs1" then (s, some "wrong protocol")
  else if m.messageType = "sync1" then
    if destIsOther m.destination s.identity then (s, none)
    else
      let s₁ := { s with outbox := s.outbox ++
          [sync2Msg
            (encodeArray (ops.encodeStateAsUpdate s.store
              (decodeArray m.stateVector)))
            m.origin] }
      if m.isReply then (s₁, none) else (syncSend ops s₁ m.origin true, none)
  else if m.messageType = "sync2" then
    if m.destination ≠ some s.identity then (s, none)
    else
      (setSessionState
        (applyRemoteUpdate ops s (decodeArray m.update) (originOf m.origin))
        ConnState.on, none)
  else if m.messageType = "syncUpdate" then
    (applyRemoteUpdate ops s (decodeArray m.update) (originOf m.origin), none)
  else (s, none)

/-- Models `getState()`. -/
def Session.getState {α : Type} (s : Session α) : ConnState := s.state

/-- The consuming editor's submit callback (`applyChangesToYjs` in the
collaboration module): a guarded wrapper around `applyDataChanges` that
silently returns unless the state is `on`. -/
def applyChangesToYjs {α : Type} [DecidableEq α] [Inhabited α]
    (ops : CrdtOps α) (s : Session α) (blocks : List (Block α)) : Session α :=
  if Session.getState s ≠ ConnState.on then s
  else (Session.applyDataChanges ops s ⟨none, blocks, []⟩).1

/-- Models `undoManager.hasUndo()`: `(undoManager?.undoStack.length ?? 0) > 1`. -/
def Session.hasUndo {α : Type} (s : Session α) : Bool :=
  (match s.undoManager with
    | some m => m.undoStack.length
    | none => 0) > 1

/-- Models `undoManager.hasRedo()`: `!!undoManager?.redoStack.length`. -/
def Session.hasRedo {α : Type} (s : Session α) : Bool :=
  match s.undoManager with
  | some m => !(m.redoStack.length = 0 : Bool)
  | none => false

/-- Models `undoManager.undo()`: `undoManager?.undo()` — a no-op without a
manager; otherwise pop, restore the recovered selection, and apply the
inverse operations to the document in a transaction originated by the
undo manager. -/
def Session.undo {α : Type} [DecidableEq α] [Inhabited α] (ops : CrdtOps α)
    (s : Session α) : Session α :=
  match s.undoManager with
  | none => s
  | some m =>
    match m.undoStack.getLast? with
    | none => s
    | some _ =>
      let (m', sel) := m.undo
      let s₁ := { s with undoManager := some m' }
      let s₂ :=
        match sel with
        | some v => { s₁ with setSelections := s₁.setSelections ++ [v] }
        | none => s₁
      let st' := ops.undoApply s₂.store
      handleUpdate { s₂ with store := st' } Origin.undoMgr
        (ops.updateDelta s₂.store st')

/-- Models `undoManager.redo()`: symmetric to `Session.undo`. -/
def Session.redo {α : Type} [DecidableEq α] [Inhabited α] (ops : CrdtOps α)
    (s : Session α) : Session α :=
  match s.undoManager with
  | none => s
  | some m =>
    match m.redoStack.getLast? with
    | none => s
    | some _ =>
      let (m', sel) := m.redo
      let s₁ := { s with undoManager := some m' }
      let s₂ :=
        match sel with
        | some v => { s₁ with setSelections := s₁.setSelections ++ [v] }
        | none => s₁
      let st' := ops.redoApply s₂.store
      handleUpdate { s₂ with store := st' } Origin.undoMgr
        (ops.updateDelta s₂.store st')

/-- The session operations a consumer can invoke (thrown errors are
caught and discarded by `sessStep`, which only tracks the session
state). -/
inductive SessOp (α : Type) : Type where
  | connect
  | disconnect
  | startSharing (p : Post α)
  | applyChanges (blocks : List (Block α))
  | receive (m : WireMsg)
  | undoOp
  | redoOp

def sessStep {α : Type} [DecidableEq α] [Inhabited α] (ops : CrdtOps α)
    (s : Session α) : SessOp α → Session α
  | .connect => (Session.connect ops s).1
  | .disconnect => Session.disconnect s
  | .startSharing p => (Session.startSharing ops s p).1
  | .applyChanges bl => applyChangesToYjs ops s bl
  | .receive m => (Session.receiveMessage ops s m).1
  | .undoOp => Session.undo ops s
  | .redoOp => Session.redo ops s

def runOps {α : Type} [DecidableEq α] [Inhabited α] (ops : CrdtOps α)
    (s : Session α) : List (SessOp α) → Session α
  | [] => s
  | op :: rest => runOps ops (sessStep ops s op) rest


/-! ## Canonical encodings and fixtures -/

/-- All blocks of a tree in preorder (the processing order of
`updateBlocksDoc`). -/
def treeBlocks {α : Type} : List (Block α) → List (Block α)
  | [] => []
  | b :: rest => b :: (treeBlocks b.innerBlocks ++ treeBlocks rest)
termination_by bs => sizeOf bs
decreasing_by
  · have h : sizeOf b.innerBlocks < sizeOf b := by
      cases b with
      | mk c a i => simp [Block.innerBlocks]
    simp
    omega
  · simp

/-- All clientIds of a tree in preorder. -/
def treeIds {α : Type} (bs : List (Block α)) : List String :=
  (treeBlocks bs).map Block.clientId

/-- The order-list entries a fresh encode appends, in creation order. -/
def orderEntries {α : Type} : List (Block α) → List (String × List String)
  | [] => []
  | b :: rest =>
    (b.clientId, b.innerBlocks.map Block.clientId) ::
      (orderEntries b.innerBlocks ++ orderEntries rest)
termination_by bs => sizeOf bs
decreasing_by
  · have h : sizeOf b.innerBlocks < sizeOf b := by
      cases b with
      | mk c a i => simp [Block.innerBlocks]
    simp
    omega
  · simp

/-- The content-map entries a fresh encode appends, in creation order. -/
def dataEntries {α : Type} : List (Block α) → List (String × BlockData α)
  | [] => []
  | b :: rest =>
    (b.clientId, b.data) :: (dataEntries b.innerBlocks ++ dataEntries rest)
termination_by bs => sizeOf bs
decreasing_by
  · have h : sizeOf b.innerBlocks < sizeOf b := by
      cases b with
      | mk c a i => simp [Block.innerBlocks]
    simp
    omega
  · simp

/-- Height of a block forest (`blocksDocToArray` recursion depth). -/
def heightBs {α : Type} : List (Block α) → Nat
  | [] => 0
  | b :: rest => max (heightBs b.innerBlocks + 1) (heightBs rest)
termination_by bs => sizeOf bs
decreasing_by
  · have h : sizeOf b.innerBlocks < sizeOf b := by
      cases b with
      | mk c a i => simp [Block.innerBlocks]
    simp
    omega
  · simp

/-- The stored form of a freshly encoded reply. -/
def replyEntry (r : Reply) : String × ReplyDoc :=
  (r._id, ⟨some r.content, some r.createdAt, some r.authorId, some r.authorName⟩)

/-- The stored form of a freshly encoded comment. -/
def commentEntry (c : Comment) : String × CommentDoc :=
  (c._id, ⟨some c.type, some c.content, some c.createdAt, some c.status,
    some c.start, some c.«end», some c.authorId, some c.authorName,
    some (c.replies.map replyEntry)⟩)

/-- The spec's stated well-formedness: ids unique within each single
order list (each parent's direct children), §3. -/
def PerListUnique {α : Type} (bs : List (Block α)) : Prop :=
  (bs.map Block.clientId).Nodup ∧
    ∀ b ∈ treeBlocks bs, (b.innerBlocks.map Block.clientId).Nodup

/-- Trivial CRDT primitives, used to instantiate the abstract layer in
concrete witnesses. -/
def opsZero : CrdtOps Nat :=
  ⟨fun _ => [], fun _ _ => [], fun st _ => st, fun _ _ => [], id, id⟩

def sel0 : EditorSelection := ⟨none, none⟩

def sess0 : Session Nat := initialSession "me" sel0

/-- A per-order-list-unique tree in which the id `a` appears under two
different parents with different attributes. -/
def dupPost : Post Nat :=
  ⟨some "t", [.mk "a" 1 [], .mk "b" 2 [.mk "a" 3 []]], []⟩

/-- First attributes value of a decoded/encoded block list (used to
exhibit inequality of trees without comparing whole trees). -/
def firstAttrs (bs : List (Block Nat)) : Option Nat :=
  bs.head?.map Block.attrs

def gcBlocksBefore : List (Block Nat) := [.mk "a" 1 [], .mk "b" 2 [], .mk "c" 3 []]

def gcBlocksAfter : List (Block Nat) := [.mk "a" 1 []]

def gcDoc1 : BlocksDoc Nat := (updateBlocksDoc emptyBlocksDoc gcBlocksBefore "").1

def gcDoc2 : BlocksDoc Nat := (updateBlocksDoc gcDoc1 gcBlocksAfter "").1

/-! ## Helper lemmas -/

theorem alookup_aset_self {β : Type} (l : List (String × β)) (k : String) (v : β) :
    alookup (aset l k v) k = some v := by
  induction l with
  | nil => simp [aset, alookup]
  | cons h t ih =>
    obtain ⟨k', v'⟩ := h
    by_cases hk : k' = k <;> simp [aset, alookup, hk, ih]

theorem alookup_aset_ne {β : Type} (l : List (String × β)) (k k' : String) (v : β)
    (h : k ≠ k') : alookup (aset l k v) k' = alookup l k' := by
  induction l with
  | nil => simp [aset, alookup, h]
  | cons hd t ih =>
    obtain ⟨k₀, v₀⟩ := hd
    by_cases hk : k₀ = k
    · subst hk; simp [aset, alookup, h]
    · simp [aset, alookup, hk]
      by_cases hk' : k₀ = k' <;> simp [hk', ih]

theorem aset_fresh {β : Type} (l : List (String × β)) (k : String) (v : β)
    (h : alookup l k = none) : aset l k v = l ++ [(k, v)] := by
  induction l with
  | nil => simp [aset]
  | cons hd t ih =>
    obtain ⟨k₀, v₀⟩ := hd
    by_cases hk : k₀ = k
    · simp [alookup, hk] at h
    · simp [alookup, hk] at h
      simp [aset, hk, ih h]

theorem aset_eq_self {β : Type} (l : List (String × β)) (k : String) (v : β)
    (h : alookup l k = some v) : aset l k v = l := by
  induction l with
  | nil => simp [alookup] at h
  | cons hd t ih =>
    obtain ⟨k₀, v₀⟩ := hd
    by_cases hk : k₀ = k
    · subst hk
      simp [alookup] at h
      simp [aset, h]
    · simp [alookup, hk] at h
      simp [aset, hk, ih h]

theorem alookup_append {β : Type} (l₁ l₂ : List (String × β)) (k : String) :
    alookup (l₁ ++ l₂) k =
      (match alookup l₁ k with | some v => some v | none => alookup l₂ k) := by
  induction l₁ with
  | nil => simp [alookup]
  | cons hd t ih =>
    obtain ⟨k₀, v₀⟩ := hd
    by_cases hk : k₀ = k <;> simp [alookup, hk, ih]

theorem commonPrefixLen_nil_left {γ : Type} [DecidableEq γ] (l : List γ) :
    commonPrefixLen ([] : List γ) l = 0 := by
  cases l <;> rfl

theorem commonPrefixLen_self {γ : Type} [DecidableEq γ] (l : List γ) :
    commonPrefixLen l l = l.length := by
  induction l with
  | nil => rfl
  | cons h t ih => simp [commonPrefixLen, ih]

theorem simpleDiffArray_nil {γ : Type} [DecidableEq γ] (l : List γ) :
    simpleDiffArray [] l = ⟨0, 0, l⟩ := by
  simp [simpleDiffArray, commonPrefixLen_nil_left]

theorem simpleDiffArray_self {γ : Type} [DecidableEq γ] (l : List γ) :
    simpleDiffArray l l = ⟨l.length, 0, []⟩ := by
  simp [simpleDiffArray, commonPrefixLen_self]

theorem digitChar_toNat (d : Nat) (h : d < 10) : (digitChar d).toNat - 48 = d := by
  interval_cases d <;> rfl

theorem digitChar_ne_comma (d : Nat) : digitChar d ≠ ',' := by
  unfold digitChar
  split <;> decide

theorem parseDec_append_digit (s : List Char) (c : Char) :
    parseDec (s ++ [c]) = 10 * parseDec s + (c.toNat - 48) := by
  simp [parseDec, List.foldl_append]

theorem parseDec_toDecChars (n : Nat) : parseDec (toDecChars n) = n := by
  induction n using Nat.strong_induction_on with
  | _ n ih =>
    by_cases h : n < 10
    · rw [toDecChars]
      simp [h, parseDec, digitChar_toNat n h]
    · rw [toDecChars]
      simp only [h, dite_false]
      rw [parseDec_append_digit, ih (n / 10) (Nat.div_lt_self (by omega) (by omega)),
        digitChar_toNat (n % 10) (Nat.mod_lt n (by omega))]
      omega

theorem comma_not_mem_toDecChars (n : Nat) : ',' ∉ toDecChars n := by
  induction n using Nat.strong_induction_on with
  | _ n ih =>
    by_cases h : n < 10
    · rw [toDecChars]
      simp only [h, dite_true, List.mem_singleton]
      exact fun hc => digitChar_ne_comma n hc.symm
    · rw [toDecChars]
      simp only [h, dite_false, List.mem_append, List.mem_singleton]
      push_neg
      refine ⟨ih (n / 10) (Nat.div_lt_self (by omega) (by omega)), ?_⟩
      exact fun hc => digitChar_ne_comma (n % 10) hc.symm

theorem decodeArray_encodeArray_nonempty (l : List Nat) (hne : l ≠ [])
    (hb : ∀ b ∈ l, b < 256) : decodeArray (encodeArray l) = l := by
  unfold decodeArray encodeArray
  rw [List.splitOn_intercalate (l.map toDecChars) ','
    (by
      intro t ht
      simp only [List.mem_map] at ht
      obtain ⟨b, _, rfl⟩ := ht
      exact comma_not_mem_toDecChars b)
    (by simpa using hne)]
  rw [List.map_map]
  conv_rhs => rw [← List.map_id l]
  refine List.map_congr_left ?_
  intro b hbmem
  simp only [Function.comp_apply, parseDec_toDecChars, id]
  exact Nat.mod_eq_of_lt (hb b hbmem)

theorem decodeArray_encodeArray_nil : decodeArray (encodeArray []) = [0] := by
  decide

/-! ## Claims -/

/-- C7 (amended): running the Diff Engine (largest common prefix, then
largest non-overlapping common suffix) on `[b1,b2,b3]` and `[b2,b3,b1]`
yields `{index: 0, removeCount: 3, insert: [b2,b3,b1]}` — with no common
prefix and no common suffix, everything is replaced. -/
theorem claim_c7_diff_reorder :
    simpleDiffArray ["b1", "b2", "b3"] ["b2", "b3", "b1"] =
      ⟨0, 3, ["b2", "b3", "b1"]⟩ := by
  decide

/-- C7 counterexample: the claimed output `{index: 0, removeCount: 1,
insert: [b2,b3]}` is not what the stated prefix/suffix algorithm produces
on `[b1,b2,b3] → [b2,b3,b1]` (it would also violate the Diff Engine's
own guarantee, since applying it to the old sequence gives
`[b2,b3,b2,b3]`, not `[b2,b3,b1]`). -/
theorem claim_c7_counterexample :
    simpleDiffArray ["b1", "b2", "b3"] ["b2", "b3", "b1"] ≠
      ⟨0, 1, ["b2", "b3"]⟩ := by
  decide

/-- C2 (code bug): encoding `[a,b,c]` and then `[a]` under the root
produces a diff `{index: 1, remove: 2}`; the GC pass deletes the content
entries of `currentOrder.slice(1, 2) = [b]` only, so `c` — although
removed from the only order list referencing it (`b` and `c` keep only
their own empty child lists) — retains its content-by-id entry, violating
the claimed purge invariant (`b` is purged, showing the deletion path ran). -/
theorem claim_c2_gc_leak :
    alookup (gcDoc2.order.getD []) "" = some ["a"] ∧
    (∀ p ∈ gcDoc2.order.getD [], "c" ∉ p.2) ∧
    alookup (gcDoc2.byClientId.getD []) "b" = none ∧
    alookup (gcDoc2.byClientId.getD []) "c" = some ⟨"c", 3⟩ := by
  have h1 : gcDoc1 =
      ⟨some [("", ["a", "b", "c"]), ("a", []), ("b", []), ("c", [])],
        some [("a", ⟨"a", 1⟩), ("b", ⟨"b", 2⟩), ("c", ⟨"c", 3⟩)]⟩ := by
    simp +decide [gcDoc1, gcBlocksBefore, updateBlocksDoc,
      updateBlocksEach, simpleDiffArray, commonPrefixLen, spliceList, aset,
      alookup, adelete, ahas, emptyBlocksDoc, Block.clientId, Block.data,
      Block.attrs, Block.innerBlocks]
  have h2 : gcDoc2 =
      ⟨some [("", ["a"]), ("a", []), ("b", []), ("c", [])],
        some [("a", ⟨"a", 1⟩), ("c", ⟨"c", 3⟩)]⟩ := by
    rw [gcDoc2, h1]
    simp +decide [gcBlocksAfter, updateBlocksDoc,
      updateBlocksEach, simpleDiffArray, commonPrefixLen, spliceList, aset,
      alookup, adelete, ahas, Block.clientId, Block.data, Block.attrs,
      Block.innerBlocks]
  rw [h2]
  decide

/-- C5 (amended): a message whose protocol tag is not the expected
`'yjs1'` makes `receiveMessage` throw `'wrong protocol'` to its caller;
the session itself (document, connection state, undo manager, logs) is
unchanged, so the session remains usable and only that message is
rejected. -/
theorem claim_c5_wrong_protocol {α : Type} [DecidableEq α] [Inhabited α]
    (ops : CrdtOps α) (s : Session α) (m : WireMsg)
    (h : m.protocol ≠ "yjs1") :
    Session.receiveMessage ops s m = (s, some "wrong protocol") := by
  simp [Session.receiveMessage, h]

/-- C5 witness: a concrete wrong-protocol message thrown back unchanged. -/
theorem claim_c5_wrong_protocol_witness :
    Session.receiveMessage opsZero sess0
        ⟨"yjs0", "sync1", none, none, [], [], false⟩ =
      (sess0, some "wrong protocol") :=
  claim_c5_wrong_protocol opsZero sess0 _ (by decide)

/-- C5 counterexample: the claim says a wrong protocol tag is dropped
silently with no error surfacing to the caller of receive; in the code
`receiveMessage` throws `'wrong protocol'`. -/
theorem claim_c5_counterexample :
    (Session.receiveMessage opsZero sess0
        ⟨"yjs0", "sync1", none, none, [], [], false⟩).2 =
      some "wrong protocol" := by
  decide

/-- C10: `decodeArray ∘ encodeArray` is the identity on every non-empty
byte sequence, but the empty sequence encodes to the empty string, which
decodes to `[0]` (JS `''.split(',') = ['']` and `Number('') = 0`), not to
the empty sequence. -/
theorem claim_c10_array_codec :
    (∀ l : List Nat, l ≠ [] → (∀ b ∈ l, b < 256) →
      decodeArray (encodeArray l) = l) ∧
    encodeArray [] = [] ∧
    decodeArray (encodeArray []) = [0] := by
  refine ⟨decodeArray_encodeArray_nonempty, rfl, decodeArray_encodeArray_nil⟩

/-- C10 witness: the round trip at a concrete non-empty byte sequence. -/
theorem claim_c10_array_codec_witness :
    decodeArray (encodeArray [0, 17, 255]) = [0, 17, 255] :=
  claim_c10_array_codec.1 [0, 17, 255] (by decide) (by decide)

/-- C8: on every undo-stack pop, the `stack-item-popped` handler restores,
for direction *undo*, the caret metadata of the item left on top of the
undo stack after the pop (nothing when the stack emptied); for direction
*redo*, the popped item's own metadata; and in both directions skips
restoration when the recovered selection has no start position. -/
theorem claim_c8_undo_selection (m : UndoMgr) (l : List StackItem)
    (it t : StackItem) (sel : EditorSelection) :
    (m.undoStack = l ++ [it] → l.getLast? = some t → t.meta = some sel →
      sel.start.isSome →
      m.undo.2 = some sel ∧ m.undo.1.undoStack = l ∧
        m.undo.1.redoStack = m.redoStack ++ [it]) ∧
    (m.undoStack = [it] → m.undo.2 = none) ∧
    (m.redoStack = l ++ [it] → it.meta = some sel → sel.start.isSome →
      m.redo.2 = some sel) ∧
    (m.undoStack = l ++ [it] → l.getLast? = some t → t.meta = some sel →
      sel.start = none → m.undo.2 = none) ∧
    (m.redoStack = l ++ [it] → it.meta = some sel → sel.start = none →
      m.redo.2 = none) := by
  refine ⟨?_, ?_, ?_, ?_, ?_⟩
  · intro h1 h2 h3 h4
    simp [UndoMgr.undo, h1, stackItemPopped, h2, h3, h4]
  · intro h1
    simp [UndoMgr.undo, h1, stackItemPopped]
  · intro h1 h2 h3
    simp [UndoMgr.redo, h1, stackItemPopped, h2, h3]
  · intro h1 h2 h3 h4
    simp [UndoMgr.undo, h1, stackItemPopped, h2, h3, h4]
  · intro h1 h2 h3
    simp [UndoMgr.redo, h1, stackItemPopped, h2, h3]

/-- C8 witness: two stacked items; undoing restores the selection of the
item left on top. -/
theorem claim_c8_undo_selection_witness :
    (UndoMgr.undo ⟨[⟨some ⟨some "s1", none⟩⟩, ⟨some ⟨some "s2", none⟩⟩], []⟩).2 =
      some ⟨some "s1", none⟩ :=
  (claim_c8_undo_selection ⟨[⟨some ⟨some "s1", none⟩⟩, ⟨some ⟨some "s2", none⟩⟩], []⟩
    [⟨some ⟨some "s1", none⟩⟩] ⟨some ⟨some "s2", none⟩⟩ ⟨some ⟨some "s1", none⟩⟩
    ⟨some "s1", none⟩).1 rfl rfl rfl rfl |>.1

theorem handleUpdate_state {α : Type} [DecidableEq α] [Inhabited α]
    (s : Session α) (o : Origin) (u : List Nat) :
    (handleUpdate s o u).state = s.state := by
  obtain ⟨i, st, sto, um, cs, ob, pb, ss⟩ := s
  unfold handleUpdate
  dsimp only
  split_ifs <;> simp

theorem handleUpdate_store {α : Type} [DecidableEq α] [Inhabited α]
    (s : Session α) (o : Origin) (u : List Nat) :
    (handleUpdate s o u).store = s.store := by
  obtain ⟨i, st, sto, um, cs, ob, pb, ss⟩ := s
  unfold handleUpdate
  dsimp only
  split_ifs <;> simp

theorem handleUpdate_identity {α : Type} [DecidableEq α] [Inhabited α]
    (s : Session α) (o : Origin) (u : List Nat) :
    (handleUpdate s o u).identity = s.identity := by
  obtain ⟨i, st, sto, um, cs, ob, pb, ss⟩ := s
  unfold handleUpdate
  dsimp only
  split_ifs <;> simp

theorem handleUpdate_undoManager {α : Type} [DecidableEq α] [Inhabited α]
    (s : Session α) (o : Origin) (u : List Nat) :
    (handleUpdate s o u).undoManager = s.undoManager := by
  obtain ⟨i, st, sto, um, cs, ob, pb, ss⟩ := s
  unfold handleUpdate
  dsimp only
  split_ifs <;> simp

theorem transact_state {α : Type} [DecidableEq α] [Inhabited α]
    (ops : CrdtOps α) (s : Session α) (o : Origin)
    (f : Store α → Store α × Nat) :
    (transact ops s o f).state = s.state := by
  rcases hf : f s.store with ⟨st', w⟩
  unfold transact
  rw [hf]
  dsimp only
  by_cases hw : w > 0 <;>
    by_cases ho : o = Origin.name s.identity <;>
      cases hm : s.undoManager <;>
        simp [hw, ho, hm, handleUpdate_state]

theorem transact_store {α : Type} [DecidableEq α] [Inhabited α]
    (ops : CrdtOps α) (s : Session α) (o : Origin)
    (f : Store α → Store α × Nat) :
    (transact ops s o f).store = (f s.store).1 := by
  rcases hf : f s.store with ⟨st', w⟩
  unfold transact
  rw [hf]
  dsimp only
  by_cases hw : w > 0 <;>
    by_cases ho : o = Origin.name s.identity <;>
      cases hm : s.undoManager <;>
        simp [hw, ho, hm, handleUpdate_store]

theorem transact_identity {α : Type} [DecidableEq α] [Inhabited α]
    (ops : CrdtOps α) (s : Session α) (o : Origin)
    (f : Store α → Store α × Nat) :
    (transact ops s o f).identity = s.identity := by
  rcases hf : f s.store with ⟨st', w⟩
  unfold transact
  rw [hf]
  dsimp only
  by_cases hw : w > 0 <;>
    by_cases ho : o = Origin.name s.identity <;>
      cases hm : s.undoManager <;>
        simp [hw, ho, hm, handleUpdate_identity]

theorem transact_undoManager_none {α : Type} [DecidableEq α] [Inhabited α]
    (ops : CrdtOps α) (s : Session α) (o : Origin)
    (f : Store α → Store α × Nat) (h : s.undoManager = none) :
    (transact ops s o f).undoManager = none := by
  rcases hf : f s.store with ⟨st', w⟩
  unfold transact
  rw [hf]
  dsimp only
  by_cases hw : w > 0 <;>
    by_cases ho : o = Origin.name s.identity <;>
      simp [hw, ho, h, handleUpdate_undoManager]

/-- C4: for every received sync-request: if it carries a (truthy)
destination other than this client, nothing is emitted and the session is
unchanged; otherwise exactly one sync-response addressed to the sender is
emitted, carrying the incremental update computed against the sender's
state vector, followed by this client's own sync-request back to the
sender exactly when the incoming request's `isReply` flag is not set. -/
theorem claim_c4_sync_request {α : Type} [DecidableEq α] [Inhabited α]
    (ops : CrdtOps α) (s : Session α) (m : WireMsg)
    (hp : m.protocol = "yjs1") (ht : m.messageType = "sync1") :
    (destIsOther m.destination s.identity = true →
      Session.receiveMessage ops s m = (s, none)) ∧
    (destIsOther m.destination s.identity = false →
      Session.receiveMessage ops s m =
        ({ s with outbox := (s.outbox ++
            (sync2Msg
              (encodeArray (ops.encodeStateAsUpdate s.store
                (decodeArray m.stateVector)))
              m.origin ::
            (if m.isReply then [] else
              [sync1Msg (encodeArray (ops.encodeStateVector s.store))
                s.identity m.origin true]))) }, none)) := by
  constructor
  · intro h
    simp [Session.receiveMessage, hp, ht, h]
  · intro h
    cases hr : m.isReply <;>
      simp [Session.receiveMessage, hp, ht, h, hr, syncSend]

/-- C4 witness: a concrete non-reply sync-request addressed to this client
produces the sync-response plus the reciprocal sync-request. -/
theorem claim_c4_sync_request_witness :
    Session.receiveMessage opsZero sess0
        ⟨"yjs1", "sync1", some "you", some "me", [], [], false⟩ =
      ({ sess0 with outbox :=
          [sync2Msg (encodeArray []) (some "you"),
            sync1Msg (encodeArray []) "me" (some "you") true] }, none) := by
  have h := (claim_c4_sync_request opsZero sess0
    ⟨"yjs1", "sync1", some "you", some "me", [], [], false⟩ rfl rfl).2
    (by decide)
  simpa [sess0, initialSession, opsZero] using h

/-- C3: submitting a local change through the consuming editor's callback
while the connection state is not `on` is a silent no-op (the whole
session — document, state, outgoing messages — is returned unchanged and
nothing is thrown); when the state is `on` it runs the tree codec
(`updatePostDoc`) inside one transaction attributed to this client's
identity, and the method does not throw. -/
theorem claim_c3_local_change_gating {α : Type} [DecidableEq α] [Inhabited α]
    (ops : CrdtOps α) (s : Session α) (blocks : List (Block α)) :
    (s.state ≠ ConnState.on → applyChangesToYjs ops s blocks = s) ∧
    (s.state = ConnState.on →
      applyChangesToYjs ops s blocks =
        transact ops s (Origin.name s.identity)
          (fun st => updatePostDoc st ⟨none, blocks, []⟩) ∧
      (Session.applyDataChanges ops s ⟨none, blocks, []⟩).2 = none ∧
      (applyChangesToYjs ops s blocks).store =
        (updatePostDoc s.store ⟨none, blocks, []⟩).1 ∧
      (applyChangesToYjs ops s blocks).state = s.state) := by
  constructor
  · intro h
    simp [applyChangesToYjs, Session.getState, h]
  · intro h
    have e : applyChangesToYjs ops s blocks =
        transact ops s (Origin.name s.identity)
          (fun st => updatePostDoc st ⟨none, blocks, []⟩) := by
      simp [applyChangesToYjs, Session.getState, h, Session.applyDataChanges]
    refine ⟨e, by simp [Session.applyDataChanges, h], ?_, ?_⟩
    · rw [e, transact_store]
    · rw [e, transact_state]

/-- C3 witness: on the initial (`off`) session a local change is a
no-op. -/
theorem claim_c3_local_change_gating_witness :
    applyChangesToYjs opsZero sess0 [.mk "x" 1 []] = sess0 :=
  (claim_c3_local_change_gating opsZero sess0 [.mk "x" 1 []]).1 (by decide)

theorem syncSend_undoManager {α : Type} (ops : CrdtOps α) (s : Session α)
    (d : Option String) (r : Bool) :
    (syncSend ops s d r).undoManager = s.undoManager := rfl

theorem syncSend_state {α : Type} (ops : CrdtOps α) (s : Session α)
    (d : Option String) (r : Bool) : (syncSend ops s d r).state = s.state := rfl

theorem setSessionState_state {α : Type} (s : Session α) (st : ConnState) :
    (setSessionState s st).state = st := by
  simp only [setSessionState, setupUndoManagerOnReady]
  split_ifs <;> rfl

theorem setSessionState_undoManager_ne_on {α : Type} (s : Session α)
    (st : ConnState) (h : st ≠ ConnState.on) :
    (setSessionState s st).undoManager = s.undoManager := by
  simp only [setSessionState, setupUndoManagerOnReady]
  split_ifs with hc
  · exact absurd hc.1 h
  · rfl

theorem applyRemoteUpdate_undoManager {α : Type} [DecidableEq α] [Inhabited α]
    (ops : CrdtOps α) (s : Session α) (u : List Nat) (o : Origin) :
    (applyRemoteUpdate ops s u o).undoManager = s.undoManager := by
  unfold applyRemoteUpdate
  dsimp only
  split_ifs
  · rfl
  · rw [handleUpdate_undoManager]

theorem applyRemoteUpdate_state {α : Type} [DecidableEq α] [Inhabited α]
    (ops : CrdtOps α) (s : Session α) (u : List Nat) (o : Origin) :
    (applyRemoteUpdate ops s u o).state = s.state := by
  unfold applyRemoteUpdate
  dsimp only
  split_ifs
  · rfl
  · rw [handleUpdate_state]

/-- One step of the session cannot create the undo manager unless it also
leaves the connection state at `on`. -/
theorem sessStep_undoManager_none {α : Type} [DecidableEq α] [Inhabited α]
    (ops : CrdtOps α) (s : Session α) (op : SessOp α)
    (h : s.undoManager = none)
    (h2 : (sessStep ops s op).state ≠ ConnState.on) :
    (sessStep ops s op).undoManager = none := by
  cases op with
  | connect =>
    simp only [sessStep, Session.connect]
    split_ifs with hc
    · exact h
    · rw [syncSend_undoManager, setSessionState_undoManager_ne_on _ _ (by simp)]
      exact h
  | disconnect =>
    simp only [sessStep, Session.disconnect]
    rw [setSessionState_undoManager_ne_on _ _ (by simp)]
    exact h
  | startSharing p =>
    simp only [sessStep, Session.startSharing] at h2 ⊢
    split_ifs at h2 ⊢ with hc
    · exact h
    · exfalso
      apply h2
      simp only [Session.applyDataChanges]
      split_ifs with hs
      · exact absurd (setSessionState_state s ConnState.on) hs
      · rw [transact_state, setSessionState_state]
  | applyChanges bl =>
    simp only [sessStep, applyChangesToYjs, Session.getState] at h2 ⊢
    split_ifs at h2 ⊢ with hc
    · exact h
    · exfalso
      push_neg at hc
      apply h2
      simp only [Session.applyDataChanges]
      split_ifs with hs
      · exact absurd hc hs
      · rw [transact_state]
        exact hc
  | receive m =>
    simp only [sessStep, Session.receiveMessage] at h2 ⊢
    split_ifs at h2 ⊢ with hp h1 hd hr h2' hd2 h3
    · exact h
    · exact h
    · exact h
    · rw [syncSend_undoManager]
      exact h
    · exact h
    · exfalso
      exact h2 (setSessionState_state _ ConnState.on)
    · rw [applyRemoteUpdate_undoManager]
      exact h
    · exact h
  | undoOp =>
    simp only [sessStep, Session.undo, h]
  | redoOp =>
    simp only [sessStep, Session.redo, h]

/-- As long as a run of session operations never reaches `on`, no undo
manager is ever constructed. -/
theorem runOps_no_on_undoManager_none {α : Type} [DecidableEq α] [Inhabited α]
    (ops : CrdtOps α) (l : List (SessOp α)) :
    ∀ s : Session α, s.undoManager = none →
      (∀ n, n ≤ l.length →
        (runOps ops s (l.take n)).state ≠ ConnState.on) →
      (runOps ops s l).undoManager = none := by
  induction l with
  | nil =>
    intro s h _
    simpa [runOps] using h
  | cons op rest ih =>
    intro s h hstate
    rw [runOps]
    apply ih
    · apply sessStep_undoManager_none ops s op h
      have h1 := hstate 1 (by simp)
      simpa [runOps] using h1
    · intro n hn
      have hn1 := hstate (n + 1) (by simpa using hn)
      simpa [runOps] using hn1

/-- C9: in every session whose connection state never reaches `on` (so
the undo manager was never constructed), `hasUndo()` and `hasRedo()`
return `false`, and `undo()`/`redo()` return normally leaving the whole
session — document and connection state included — unchanged. -/
theorem claim_c9_undo_before_on {α : Type} [DecidableEq α] [Inhabited α]
    (ops : CrdtOps α) (ident : String) (sel : EditorSelection)
    (l : List (SessOp α))
    (h : ∀ n, n ≤ l.length →
      (runOps ops (initialSession ident sel) (l.take n)).state ≠
        ConnState.on) :
    (runOps ops (initialSession ident sel) l).undoManager = none ∧
    Session.hasUndo (runOps ops (initialSession ident sel) l) = false ∧
    Session.hasRedo (runOps ops (initialSession ident sel) l) = false ∧
    Session.undo ops (runOps ops (initialSession ident sel) l) =
      runOps ops (initialSession ident sel) l ∧
    Session.redo ops (runOps ops (initialSession ident sel) l) =
      runOps ops (initialSession ident sel) l := by
  have hm := runOps_no_on_undoManager_none ops l (initialSession ident sel)
    rfl h
  refine ⟨hm, ?_, ?_, ?_, ?_⟩ <;>
    simp [Session.hasUndo, Session.hasRedo, Session.undo, Session.redo, hm]

/-- C9 witness: connecting (but never completing a handshake) leaves a
session with no undo manager and inert undo operations. -/
theorem claim_c9_undo_before_on_witness :
    Session.undo opsZero (runOps opsZero (initialSession "me" sel0)
        [SessOp.connect]) =
      runOps opsZero (initialSession "me" sel0) [SessOp.connect] ∧
    Session.hasUndo (runOps opsZero (initialSession "me" sel0)
        [SessOp.connect]) = false := by
  have h := claim_c9_undo_before_on opsZero "me" sel0 [SessOp.connect]
    (by decide)
  exact ⟨h.2.2.2.1, h.2.1⟩

theorem alookup_none_of_not_mem {β : Type} (l : List (String × β)) (x : String)
    (h : x ∉ l.map Prod.fst) : alookup l x = none := by
  induction l with
  | nil => rfl
  | cons hd t ih =>
    obtain ⟨k, v⟩ := hd
    simp only [List.map_cons, List.mem_cons] at h
    push_neg at h
    have hne : k ≠ x := fun hk => h.1 hk.symm
    simp only [alookup, if_neg hne]
    exact ih h.2

theorem alookup_map_of_mem {τ β : Type} (key : τ → String) (val : τ → β)
    (l : List τ) (b : τ) (hb : b ∈ l) (hnd : (l.map key).Nodup) :
    alookup (l.map fun t => (key t, val t)) (key b) = some (val b) := by
  induction l with
  | nil => simp at hb
  | cons hd t ih =>
    simp only [List.map_cons, List.nodup_cons] at hnd
    rcases List.mem_cons.mp hb with rfl | hmem
    · simp [alookup]
    · have hne : key hd ≠ key b := by
        intro he
        exact hnd.1 (he ▸ List.mem_map_of_mem key hmem)
      simp only [List.map_cons, alookup, if_neg hne]
      exact ih hmem hnd.2

theorem orderEntries_eq_map {α : Type} (bs : List (Block α)) :
    orderEntries bs = (treeBlocks bs).map
      (fun b => (b.clientId, b.innerBlocks.map Block.clientId)) := by
  induction bs using treeBlocks.induct with
  | case1 => simp [treeBlocks, orderEntries]
  | case2 b rest ih1 ih2 => simp [treeBlocks, orderEntries, ih1, ih2]

theorem dataEntries_eq_map {α : Type} (bs : List (Block α)) :
    dataEntries bs = (treeBlocks bs).map (fun b => (b.clientId, b.data)) := by
  induction bs using treeBlocks.induct with
  | case1 => simp [treeBlocks, dataEntries]
  | case2 b rest ih1 ih2 => simp [treeBlocks, dataEntries, ih1, ih2]

theorem treeIds_cons {α : Type} (b : Block α) (rest : List (Block α)) :
    treeIds (b :: rest) =
      b.clientId :: (treeIds b.innerBlocks ++ treeIds rest) := by
  simp [treeIds, treeBlocks]

theorem orderEntries_keys {α : Type} (bs : List (Block α)) :
    (orderEntries bs).map Prod.fst = treeIds bs := by
  rw [orderEntries_eq_map, treeIds, List.map_map]
  rfl

theorem dataEntries_keys {α : Type} (bs : List (Block α)) :
    (dataEntries bs).map Prod.fst = treeIds bs := by
  rw [dataEntries_eq_map, treeIds, List.map_map]
  rfl

theorem mem_treeBlocks_self {α : Type} (bs : List (Block α)) (b : Block α)
    (hb : b ∈ bs) : b ∈ treeBlocks bs := by
  induction bs with
  | nil => simp at hb
  | cons hd t ih =>
    rw [treeBlocks]
    rcases List.mem_cons.mp hb with rfl | hmem
    · exact List.mem_cons_self _ _
    · exact List.mem_cons_of_mem _ (List.mem_append_right _ (ih hmem))

theorem treeBlocks_inner_subset {α : Type} (bs : List (Block α)) (b x : Block α)
    (hb : b ∈ bs) (hx : x ∈ treeBlocks b.innerBlocks) : x ∈ treeBlocks bs := by
  induction bs with
  | nil => simp at hb
  | cons hd t ih =>
    rw [treeBlocks]
    rcases List.mem_cons.mp hb with rfl | hmem
    · exact List.mem_cons_of_mem _ (List.mem_append_left _ hx)
    · exact List.mem_cons_of_mem _ (List.mem_append_right _ (ih hmem))

theorem heightBs_inner_lt {α : Type} (bs : List (Block α)) (b : Block α)
    (hb : b ∈ bs) : heightBs b.innerBlocks < heightBs bs := by
  induction bs with
  | nil => simp at hb
  | cons hd t ih =>
    rw [heightBs]
    rcases List.mem_cons.mp hb with rfl | hmem
    · omega
    · have := ih hmem
      omega

theorem aset_append_last {β : Type} (l : List (String × β)) (k : String)
    (v v' : β) (h : alookup l k = none) :
    aset (l ++ [(k, v)]) k v' = l ++ [(k, v')] := by
  induction l with
  | nil => simp [aset]
  | cons hd t ih =>
    obtain ⟨k₀, v₀⟩ := hd
    by_cases hk : k₀ = k
    · simp [alookup, hk] at h
    · simp only [alookup, if_neg hk] at h
      simp [aset, hk, ih h]

theorem sortReplies_sorted_id (l : List Reply)
    (h : l.Pairwise (fun a b => a.createdAt ≤ b.createdAt)) :
    sortReplies l = l := by
  induction l with
  | nil => rfl
  | cons r rest ih =>
    rw [List.pairwise_cons] at h
    rw [sortReplies, ih h.2]
    cases rest with
    | nil => rfl
    | cons x xs =>
      have hrx : r.createdAt ≤ x.createdAt := h.1 x (List.mem_cons_self _ _)
      rw [insertReplySorted, if_neg (by omega)]

/-- Fresh encode: on a store whose order and content maps contain none of
the tree's ids (and not the parent key), one `updateBlocksDoc` pass
appends exactly the canonical entries, in creation order. -/
theorem updateBlocks_fresh {α : Type} [DecidableEq α] (n : Nat) :
    (∀ (bs : List (Block α)) (cid : String) (O : List (String × List String))
        (B : List (String × BlockData α)),
      sizeOf bs ≤ n →
      alookup O cid = none →
      cid ∉ treeIds bs →
      (treeIds bs).Nodup →
      (∀ x ∈ treeIds bs, alookup O x = none) →
      (∀ x ∈ treeIds bs, alookup B x = none) →
      (updateBlocksDoc (⟨some O, some B⟩ : BlocksDoc α) bs cid).1 =
        ⟨some (O ++ (cid, bs.map Block.clientId) :: orderEntries bs),
          some (B ++ dataEntries bs)⟩) ∧
    (∀ (bs : List (Block α)) (O : List (String × List String))
        (B : List (String × BlockData α)),
      sizeOf bs ≤ n →
      (treeIds bs).Nodup →
      (∀ x ∈ treeIds bs, alookup O x = none) →
      (∀ x ∈ treeIds bs, alookup B x = none) →
      (updateBlocksEach (⟨some O, some B⟩ : BlocksDoc α) bs).1 =
        ⟨some (O ++ orderEntries bs), some (B ++ dataEntries bs)⟩) := by
  induction n using Nat.strong_induction_on with
  | _ n IH =>
    have hb : ∀ (bs : List (Block α)) (O : List (String × List String))
        (B : List (String × BlockData α)),
        sizeOf bs ≤ n →
        (treeIds bs).Nodup →
        (∀ x ∈ treeIds bs, alookup O x = none) →
        (∀ x ∈ treeIds bs, alookup B x = none) →
        (updateBlocksEach (⟨some O, some B⟩ : BlocksDoc α) bs).1 =
          ⟨some (O ++ orderEntries bs), some (B ++ dataEntries bs)⟩ := by
      intro bs
      cases bs with
      | nil =>
        intro O B _ _ _ _
        rw [updateBlocksEach]
        simp [orderEntries, dataEntries]
      | cons b rest =>
        intro O B hsz hnd hO hB
        have h1 : sizeOf b.innerBlocks < sizeOf b := by
          cases b with
          | mk c a i => simp [Block.innerBlocks]
        have h2 : sizeOf (b :: rest) = 1 + sizeOf b + sizeOf rest := by simp
        have hsz' : sizeOf b.innerBlocks < n := by omega
        have hszr : sizeOf rest < n := by omega
        rw [treeIds_cons] at hnd hO hB
        have hnd1 : b.clientId ∉ treeIds b.innerBlocks ++ treeIds rest :=
          (List.nodup_cons.mp hnd).1
        have hnd2 := (List.nodup_cons.mp hnd).2
        have hndI : (treeIds b.innerBlocks).Nodup :=
          (List.nodup_append.mp hnd2).1
        have hndR : (treeIds rest).Nodup := (List.nodup_append.mp hnd2).2.1
        have hdisj := (List.nodup_append.mp hnd2).2.2
        have hBb : alookup B b.clientId = none :=
          hB _ (List.mem_cons_self _ _)
        have hOb : alookup O b.clientId = none :=
          hO _ (List.mem_cons_self _ _)
        rw [updateBlocksEach]
        simp only [Option.getD_some]
        rw [if_neg (by rw [hBb]; simp)]
        simp only [aset_fresh B b.clientId b.data hBb]
        -- the recursive encode of the inner blocks
        have hInner := (IH (sizeOf b.innerBlocks) hsz').1 b.innerBlocks
          b.clientId O (B ++ [(b.clientId, b.data)]) le_rfl hOb
          (fun hmem => hnd1 (List.mem_append_left _ hmem))
          hndI
          (fun x hx => hO x (List.mem_cons_of_mem _
            (List.mem_append_left _ hx)))
          (fun x hx => by
            rw [alookup_append]
            rw [hB x (List.mem_cons_of_mem _ (List.mem_append_left _ hx))]
            have hxb : x ≠ b.clientId := by
              intro he
              exact hnd1 (he ▸ List.mem_append_left _ hx)
            simp [alookup, Ne.symm hxb])
        rcases hE : updateBlocksDoc
            (⟨some O, some (B ++ [(b.clientId, b.data)])⟩ : BlocksDoc α)
            b.innerBlocks b.clientId with ⟨d₂, w₂⟩
        rw [hE] at hInner
        dsimp at hInner
        dsimp only
        subst hInner
        -- the loop over the remaining siblings
        have hRest := (IH (sizeOf rest) hszr).2 rest
          (O ++ (b.clientId, b.innerBlocks.map Block.clientId) ::
            orderEntries b.innerBlocks)
          ((B ++ [(b.clientId, b.data)]) ++ dataEntries b.innerBlocks)
          le_rfl hndR
          (fun x hx => by
            rw [alookup_append]
            rw [hO x (List.mem_cons_of_mem _ (List.mem_append_right _ hx))]
            have hxb : x ≠ b.clientId := by
              intro he
              exact hnd1 (he ▸ List.mem_append_right _ hx)
            have hxe : alookup (orderEntries b.innerBlocks) x = none := by
              apply alookup_none_of_not_mem
              rw [orderEntries_keys]
              exact fun hmem => (List.disjoint_right.mp hdisj) hx hmem
            simp [alookup, Ne.symm hxb, hxe])
          (fun x hx => by
            rw [alookup_append, alookup_append]
            rw [hB x (List.mem_cons_of_mem _ (List.mem_append_right _ hx))]
            have hxb : x ≠ b.clientId := by
              intro he
              exact hnd1 (he ▸ List.mem_append_right _ hx)
            have hxe : alookup (dataEntries b.innerBlocks) x = none := by
              apply alookup_none_of_not_mem
              rw [dataEntries_keys]
              exact fun hmem => (List.disjoint_right.mp hdisj) hx hmem
            simp [alookup, Ne.symm hxb, hxe])
        rcases hR : updateBlocksEach
            (⟨some (O ++ (b.clientId, b.innerBlocks.map Block.clientId) ::
                orderEntries b.innerBlocks),
              some ((B ++ [(b.clientId, b.data)]) ++
                dataEntries b.innerBlocks)⟩ : BlocksDoc α) rest
          with ⟨d₃, w₃⟩
        rw [hR] at hRest
        dsimp at hRest
        dsimp only
        rw [hRest, orderEntries, dataEntries]
        simp
    have ha : ∀ (bs : List (Block α)) (cid : String)
        (O : List (String × List String)) (B : List (String × BlockData α)),
        sizeOf bs ≤ n →
        alookup O cid = none →
        cid ∉ treeIds bs →
        (treeIds bs).Nodup →
        (∀ x ∈ treeIds bs, alookup O x = none) →
        (∀ x ∈ treeIds bs, alookup B x = none) →
        (updateBlocksDoc (⟨some O, some B⟩ : BlocksDoc α) bs cid).1 =
          ⟨some (O ++ (cid, bs.map Block.clientId) :: orderEntries bs),
            some (B ++ dataEntries bs)⟩ := by
      intro bs cid O B hsz hOcid hcid hnd hO hB
      rw [updateBlocksDoc]
      dsimp only
      rw [if_neg (by simp [ahas, hOcid])]
      rw [aset_fresh O cid [] hOcid]
      have hcur : alookup (O ++ [(cid, [])]) cid = some [] := by
        rw [alookup_append, hOcid]
        simp [alookup]
      rw [hcur]
      dsimp only
      rw [Option.getD_some]
      rw [simpleDiffArray_nil]
      dsimp only
      simp only [spliceList, List.take_nil, List.drop_nil, List.nil_append,
        List.append_nil]
      rw [aset_append_last O cid [] (bs.map Block.clientId) hOcid]
      simp only [List.foldl_nil]
      have hbApp := hb bs (O ++ [(cid, bs.map Block.clientId)]) B hsz hnd
        (fun x hx => by
          rw [alookup_append, hO x hx]
          have hxc : x ≠ cid := fun he => hcid (he ▸ hx)
          simp [alookup, Ne.symm hxc])
        hB
      rw [hbApp]
      simp
    exact ⟨ha, hb⟩

theorem Block.eta {α : Type} (b : Block α) :
    Block.mk b.clientId b.attrs b.innerBlocks = b := by
  cases b
  rfl

/-- Decode correctness: on a store that contains the canonical order and
content entries of a tree, `blocksDocToArray` rebuilds the tree, for any
fuel exceeding its height. -/
theorem blocksDocToArray_decode {α : Type} [DecidableEq α] [Inhabited α] :
    ∀ (fuel : Nat) (bs : List (Block α)) (cid : String) (d : BlocksDoc α),
      heightBs bs < fuel →
      alookup (d.order.getD []) cid = some (bs.map Block.clientId) →
      (∀ b ∈ treeBlocks bs, alookup (d.order.getD []) b.clientId =
        some (b.innerBlocks.map Block.clientId)) →
      (∀ b ∈ treeBlocks bs, alookup (d.byClientId.getD []) b.clientId =
        some b.data) →
      blocksDocToArray d cid fuel = bs := by
  intro fuel
  induction fuel with
  | zero =>
    intro bs cid d hh
    omega
  | succ fuel ih =>
    intro bs cid d hh hcid hord hdata
    rw [blocksDocToArray, hcid]
    dsimp only
    rw [List.map_map]
    conv_rhs => rw [← List.map_id bs]
    refine List.map_congr_left ?_
    intro b hb
    have hmem := mem_treeBlocks_self bs b hb
    simp only [Function.comp_apply, hdata b hmem, id]
    have hinner : blocksDocToArray d b.clientId fuel = b.innerBlocks := by
      apply ih b.innerBlocks b.clientId d
      · have h1 := heightBs_inner_lt bs b hb
        omega
      · exact hord b hmem
      · exact fun x hx => hord x (treeBlocks_inner_subset bs b x hb hx)
      · exact fun x hx => hdata x (treeBlocks_inner_subset bs b x hb hx)
    rw [hinner]
    exact Block.eta b

/-- Fresh encode of replies: appends the canonical reply entries. -/
theorem updateReplies_fresh :
    ∀ (rs : List Reply) (rd : List (String × ReplyDoc)),
      (∀ r ∈ rs, alookup rd r._id = none) →
      (rs.map Reply._id).Nodup →
      (updateCommentRepliesDoc rd rs).1 = rd ++ rs.map replyEntry := by
  intro rs
  induction rs with
  | nil =>
    intro rd _ _
    simp [updateCommentRepliesDoc]
  | cons r rest ih =>
    intro rd hfresh hnd
    simp only [List.map_cons, List.nodup_cons] at hnd
    have hr : alookup rd r._id = none := hfresh r (List.mem_cons_self _ _)
    rw [updateCommentRepliesDoc]
    dsimp only
    have hone : (updateOneReply rd r).1 = rd ++ [replyEntry r] := by
      rw [updateOneReply]
      dsimp only
      rw [if_pos (by simp [ahas, hr])]
      simp only [ahas, hr, Option.isSome_none, Bool.not_false,
        aset_fresh rd r._id emptyReplyDoc hr]
      have hcur : alookup (rd ++ [(r._id, emptyReplyDoc)]) r._id =
          some emptyReplyDoc := by
        rw [alookup_append, hr]
        simp [alookup]
      rw [hcur]
      simp only [Option.getD_some, setField, Bool.true_or, if_pos]
      rw [aset_append_last rd r._id emptyReplyDoc _ hr]
      rfl
    rcases hE : updateOneReply rd r with ⟨rd₁, w₁⟩
    rw [hE] at hone
    dsimp at hone
    subst hone
    dsimp only
    have hrest := ih (rd ++ [replyEntry r])
      (fun r' hr' => by
        rw [alookup_append, hfresh r' (List.mem_cons_of_mem _ hr')]
        have hne : r'._id ≠ r._id := by
          intro he
          exact hnd.1 (he ▸ List.mem_map_of_mem Reply._id hr')
        simp [replyEntry, alookup, Ne.symm hne])
      hnd.2
    rcases hR : updateCommentRepliesDoc (rd ++ [replyEntry r]) rest
      with ⟨rd₂, w₂⟩
    rw [hR] at hrest
    dsimp at hrest
    rw [hrest]
    simp

/-- Fresh encode of comments: appends the canonical comment entries. -/
theorem updateComments_fresh :
    ∀ (cs : List Comment) (cd : List (String × CommentDoc)),
      (∀ c ∈ cs, alookup cd c._id = none) →
      (cs.map Comment._id).Nodup →
      (∀ c ∈ cs, (c.replies.map Reply._id).Nodup) →
      (updateCommentsDoc cd cs).1 = cd ++ cs.map commentEntry := by
  intro cs
  induction cs with
  | nil =>
    intro cd _ _ _
    simp [updateCommentsDoc]
  | cons c rest ih =>
    intro cd hfresh hnd hrep
    simp only [List.map_cons, List.nodup_cons] at hnd
    have hc : alookup cd c._id = none := hfresh c (List.mem_cons_self _ _)
    rw [updateCommentsDoc]
    dsimp only
    have hone : (updateOneComment cd c).1 = cd ++ [commentEntry c] := by
      rw [updateOneComment]
      dsimp only
      rw [if_pos (by simp [ahas, hc])]
      simp only [ahas, hc, Option.isSome_none, Bool.not_false,
        aset_fresh cd c._id emptyCommentDoc hc]
      have hcur : alookup (cd ++ [(c._id, emptyCommentDoc)]) c._id =
          some emptyCommentDoc := by
        rw [alookup_append, hc]
        simp [alookup]
      rw [hcur]
      simp only [Option.getD_some, setField, Bool.true_or, if_pos]
      have hreplies := updateReplies_fresh c.replies []
        (fun r _ => rfl) (hrep c (List.mem_cons_self _ _))
      rcases hRE : updateCommentRepliesDoc [] c.replies with ⟨rd₁, wr⟩
      rw [hRE] at hreplies
      dsimp at hreplies
      subst hreplies
      rw [aset_append_last cd c._id emptyCommentDoc _ hc]
      rfl
    rcases hE : updateOneComment cd c with ⟨cd₁, w₁⟩
    rw [hE] at hone
    dsimp at hone
    subst hone
    dsimp only
    have hrest := ih (cd ++ [commentEntry c])
      (fun c' hc' => by
        rw [alookup_append, hfresh c' (List.mem_cons_of_mem _ hc')]
        have hne : c'._id ≠ c._id := by
          intro he
          exact hnd.1 (he ▸ List.mem_map_of_mem Comment._id hc')
        simp [commentEntry, alookup, Ne.symm hne])
      hnd.2
      (fun c' hc' => hrep c' (List.mem_cons_of_mem _ hc'))
    rcases hR : updateCommentsDoc (cd ++ [commentEntry c]) rest
      with ⟨cd₂, w₂⟩
    rw [hR] at hrest
    dsimp at hrest
    rw [hrest]
    simp

theorem Reply.eta_decode (r : Reply) :
    decodeReply (replyEntry r).1 (replyEntry r).2 = r := by
  cases r
  rfl

/-- Decoding the canonical comment entries gives back the comment list,
provided each reply list was already ordered by creation time (the decode
side sorts; a stable sort of a sorted list is the identity). -/
theorem commentsDocToArray_decode (cs : List Comment)
    (hsorted : ∀ c ∈ cs,
      c.replies.Pairwise (fun a b => a.createdAt ≤ b.createdAt)) :
    commentsDocToArray (some (cs.map commentEntry)) = cs := by
  rw [commentsDocToArray]
  rw [List.map_map]
  conv_rhs => rw [← List.map_id cs]
  refine List.map_congr_left ?_
  intro c hc
  simp only [Function.comp_apply, id]
  show decodeComment (commentEntry c).1 (commentEntry c).2 = c
  rw [decodeComment, commentEntry]
  dsimp only
  simp only [Option.getD_some, List.map_map]
  have hmap : ∀ p ∈ c.replies.map replyEntry,
      decodeReply p.1 p.2 = decodeReply p.1 p.2 := fun _ _ => rfl
  have : (c.replies.map fun r =>
      decodeReply (replyEntry r).1 (replyEntry r).2) = c.replies := by
    conv_rhs => rw [← List.map_id c.replies]
    refine List.map_congr_left ?_
    intro r _
    exact Reply.eta_decode r
  rw [show ((fun p => decodeReply p.1 p.2) ∘ replyEntry) =
      (fun r => decodeReply (replyEntry r).1 (replyEntry r).2) from rfl]
  rw [this, sortReplies_sorted_id c.replies (hsorted c hc)]

/-- Second pass over replies that are already stored: zero writes, store
unchanged. -/
theorem updateReplies_second :
    ∀ (rs : List Reply) (rd : List (String × ReplyDoc)),
      (∀ r ∈ rs, alookup rd r._id = some (replyEntry r).2) →
      updateCommentRepliesDoc rd rs = (rd, 0) := by
  intro rs
  induction rs with
  | nil =>
    intro rd _
    rfl
  | cons r rest ih =>
    intro rd hstored
    have hr := hstored r (List.mem_cons_self _ _)
    rw [updateCommentRepliesDoc]
    dsimp only
    have hone : updateOneReply rd r = (rd, 0) := by
      rw [updateOneReply]
      dsimp only
      rw [if_neg (by simp [ahas, hr])]
      simp only [ahas, hr, Option.isSome_some, Bool.not_true, hr,
        Option.getD_some]
      simp only [setField, replyEntry]
      simp only [Bool.false_or]
      norm_num
      exact aset_eq_self rd r._id _ hr
    rw [hone]
    dsimp only
    rw [ih rd (fun r' hr' => hstored r' (List.mem_cons_of_mem _ hr'))]
    simp

/-- Second pass over comments that are already stored: zero writes, store
unchanged. -/
theorem updateComments_second :
    ∀ (cs : List Comment) (cd : List (String × CommentDoc)),
      (∀ c ∈ cs, alookup cd c._id = some (commentEntry c).2) →
      (∀ c ∈ cs, (c.replies.map Reply._id).Nodup) →
      updateCommentsDoc cd cs = (cd, 0) := by
  intro cs
  induction cs with
  | nil =>
    intro cd _ _
    rfl
  | cons c rest ih =>
    intro cd hstored hrep
    have hcst := hstored c (List.mem_cons_self _ _)
    rw [updateCommentsDoc]
    dsimp only
    have hone : updateOneComment cd c = (cd, 0) := by
      rw [updateOneComment]
      dsimp only
      rw [if_neg (by simp [ahas, hcst])]
      simp only [ahas, hcst, Option.isSome_some, Bool.not_true,
        Option.getD_some]
      simp only [setField, commentEntry]
      simp only [Bool.false_or]
      norm_num
      have hreps : updateCommentRepliesDoc (c.replies.map replyEntry)
          c.replies = (c.replies.map replyEntry, 0) := by
        apply updateReplies_second
        intro r hrmem
        have : (replyEntry r).1 = r._id := rfl
        rw [← this]
        exact alookup_map_of_mem Reply._id (fun r => (replyEntry r).2)
          c.replies r hrmem (hrep c (List.mem_cons_self _ _))
      rw [hreps]
      dsimp only
      exact ⟨aset_eq_self cd c._id _ hcst, rfl⟩
    rw [hone]
    dsimp only
    rw [ih cd (fun c' hc' => hstored c' (List.mem_cons_of_mem _ hc'))
      (fun c' hc' => hrep c' (List.mem_cons_of_mem _ hc'))]
    simp

theorem spliceList_id {γ : Type} (l : List γ) :
    spliceList l l.length 0 [] = l := by
  simp [spliceList]

/-- Second encode of an unchanged tree over a store already holding its
canonical entries: zero writes, store unchanged. -/
theorem updateBlocks_second {α : Type} [DecidableEq α] (n : Nat) :
    (∀ (bs : List (Block α)) (cid : String) (O : List (String × List String))
        (B : List (String × BlockData α)),
      sizeOf bs ≤ n →
      alookup O cid = some (bs.map Block.clientId) →
      (∀ b ∈ treeBlocks bs, alookup O b.clientId =
        some (b.innerBlocks.map Block.clientId)) →
      (∀ b ∈ treeBlocks bs, alookup B b.clientId = some b.data) →
      updateBlocksDoc (⟨some O, some B⟩ : BlocksDoc α) bs cid =
        (⟨some O, some B⟩, 0)) ∧
    (∀ (bs : List (Block α)) (O : List (String × List String))
        (B : List (String × BlockData α)),
      sizeOf bs ≤ n →
      (∀ b ∈ treeBlocks bs, alookup O b.clientId =
        some (b.innerBlocks.map Block.clientId)) →
      (∀ b ∈ treeBlocks bs, alookup B b.clientId = some b.data) →
      updateBlocksEach (⟨some O, some B⟩ : BlocksDoc α) bs =
        (⟨some O, some B⟩, 0)) := by
  induction n using Nat.strong_induction_on with
  | _ n IH =>
    have hb : ∀ (bs : List (Block α)) (O : List (String × List String))
        (B : List (String × BlockData α)),
        sizeOf bs ≤ n →
        (∀ b ∈ treeBlocks bs, alookup O b.clientId =
          some (b.innerBlocks.map Block.clientId)) →
        (∀ b ∈ treeBlocks bs, alookup B b.clientId = some b.data) →
        updateBlocksEach (⟨some O, some B⟩ : BlocksDoc α) bs =
          (⟨some O, some B⟩, 0) := by
      intro bs
      cases bs with
      | nil =>
        intro O B _ _ _
        rw [updateBlocksEach]
      | cons b rest =>
        intro O B hsz hO hB
        have h1 : sizeOf b.innerBlocks < sizeOf b := by
          cases b with
          | mk c a i => simp [Block.innerBlocks]
        have h2 : sizeOf (b :: rest) = 1 + sizeOf b + sizeOf rest := by simp
        have hsz' : sizeOf b.innerBlocks < n := by omega
        have hszr : sizeOf rest < n := by omega
        have hbmem : b ∈ treeBlocks (b :: rest) := by
          rw [treeBlocks]
          exact List.mem_cons_self _ _
        rw [updateBlocksEach]
        dsimp only
        rw [if_pos (by rw [Option.getD_some, hB b hbmem])]
        dsimp only
        have hInner := (IH (sizeOf b.innerBlocks) hsz').1 b.innerBlocks
          b.clientId O B le_rfl (hO b hbmem)
          (fun x hx => hO x (by
            rw [treeBlocks]
            exact List.mem_cons_of_mem _ (List.mem_append_left _ hx)))
          (fun x hx => hB x (by
            rw [treeBlocks]
            exact List.mem_cons_of_mem _ (List.mem_append_left _ hx)))
        rw [hInner]
        dsimp only
        have hRest := (IH (sizeOf rest) hszr).2 rest O B le_rfl
          (fun x hx => hO x (by
            rw [treeBlocks]
            exact List.mem_cons_of_mem _ (List.mem_append_right _ hx)))
          (fun x hx => hB x (by
            rw [treeBlocks]
            exact List.mem_cons_of_mem _ (List.mem_append_right _ hx)))
        rw [hRest]
        simp
    have ha : ∀ (bs : List (Block α)) (cid : String)
        (O : List (String × List String)) (B : List (String × BlockData α)),
        sizeOf bs ≤ n →
        alookup O cid = some (bs.map Block.clientId) →
        (∀ b ∈ treeBlocks bs, alookup O b.clientId =
          some (b.innerBlocks.map Block.clientId)) →
        (∀ b ∈ treeBlocks bs, alookup B b.clientId = some b.data) →
        updateBlocksDoc (⟨some O, some B⟩ : BlocksDoc α) bs cid =
          (⟨some O, some B⟩, 0) := by
      intro bs cid O B hsz hcid hO hB
      rw [updateBlocksDoc]
      dsimp only
      rw [if_pos (by simp [ahas, hcid])]
      simp only [hcid, Option.getD_some]
      rw [simpleDiffArray_self]
      dsimp only
      rw [spliceList_id]
      rw [aset_eq_self O cid _ hcid]
      simp only [List.take_zero, List.drop_nil, List.foldl_nil]
      rw [hb bs O B hsz hO hB]
      simp
    exact ⟨ha, hb⟩

/-- The store produced from a missing blocks map and from a freshly
created empty one coincide (only the write counts differ). -/
theorem updateBlocksDoc_none_eq_empty {α : Type} [DecidableEq α]
    (bs : List (Block α)) (cid : String) :
    (updateBlocksDoc (⟨none, none⟩ : BlocksDoc α) bs cid).1 =
      (updateBlocksDoc (⟨some [], some []⟩ : BlocksDoc α) bs cid).1 := by
  rw [updateBlocksDoc, updateBlocksDoc]

/-- Encoding a post into the empty store produces exactly the canonical
entries (title, per-parent order lists in preorder, flat content map,
comment docs). -/
theorem updatePostDoc_empty {α : Type} [DecidableEq α] (p : Post α)
    (hb : ("" :: treeIds p.blocks).Nodup)
    (hc : (p.comments.map Comment._id).Nodup)
    (hr : ∀ c ∈ p.comments, (c.replies.map Reply._id).Nodup) :
    (updatePostDoc (emptyStore : Store α) p).1 =
      ⟨p.title,
        some ⟨some (("", p.blocks.map Block.clientId) ::
            orderEntries p.blocks),
          some (dataEntries p.blocks)⟩,
        some (p.comments.map commentEntry)⟩ := by
  have hroot : "" ∉ treeIds p.blocks := (List.nodup_cons.mp hb).1
  have hnd : (treeIds p.blocks).Nodup := (List.nodup_cons.mp hb).2
  rw [updatePostDoc]
  dsimp only [emptyStore, emptyBlocksDoc]
  have hblocks := (updateBlocksDoc_none_eq_empty p.blocks "").trans
    ((updateBlocks_fresh (sizeOf p.blocks)).1 p.blocks "" [] [] le_rfl rfl
      hroot hnd (fun x _ => rfl) (fun x _ => rfl))
  rcases hB : updateBlocksDoc (⟨none, none⟩ : BlocksDoc α) p.blocks ""
    with ⟨bd, wb⟩
  rw [hB] at hblocks
  dsimp at hblocks
  have hcomments := updateComments_fresh p.comments [] (fun c _ => rfl) hc hr
  rcases hC : updateCommentsDoc ([] : List (String × CommentDoc)) p.comments
    with ⟨cd, wc⟩
  rw [hC] at hcomments
  dsimp at hcomments
  subst hblocks
  subst hcomments
  by_cases ht : (none : Option String) = p.title <;> simp [ht]

theorem canonical_order_lookup {α : Type} (bs : List (Block α))
    (hroot : "" ∉ treeIds bs) (hnd : (treeIds bs).Nodup) :
    ∀ b ∈ treeBlocks bs,
      alookup (("", bs.map Block.clientId) :: orderEntries bs) b.clientId =
        some (b.innerBlocks.map Block.clientId) := by
  intro b hb
  have hid : b.clientId ∈ treeIds bs := List.mem_map_of_mem Block.clientId hb
  have hne : b.clientId ≠ "" := fun he => hroot (he ▸ hid)
  simp only [alookup, if_neg (Ne.symm hne)]
  rw [orderEntries_eq_map]
  exact alookup_map_of_mem Block.clientId
    (fun b => b.innerBlocks.map Block.clientId) (treeBlocks bs) b hb
    (by rw [show (treeBlocks bs).map Block.clientId = treeIds bs from rfl]
        exact hnd)

theorem canonical_data_lookup {α : Type} (bs : List (Block α))
    (hnd : (treeIds bs).Nodup) :
    ∀ b ∈ treeBlocks bs,
      alookup (dataEntries bs) b.clientId = some b.data := by
  intro b hb
  rw [dataEntries_eq_map]
  exact alookup_map_of_mem Block.clientId Block.data (treeBlocks bs) b hb
    (by rw [show (treeBlocks bs).map Block.clientId = treeIds bs from rfl]
        exact hnd)

/-- C1 (amended): encoding a well-formed post — block ids globally unique
across the whole tree (and distinct from the root key), comment ids
unique, reply ids unique per comment, replies listed in nondecreasing
creation order — into the empty store and decoding it back yields the
original post, for any decode fuel exceeding the tree height. -/
theorem claim_c1_roundtrip {α : Type} [DecidableEq α] [Inhabited α]
    (p : Post α) (t : String) (fuel : Nat)
    (ht : p.title = some t)
    (hb : ("" :: treeIds p.blocks).Nodup)
    (hc : (p.comments.map Comment._id).Nodup)
    (hr : ∀ c ∈ p.comments, (c.replies.map Reply._id).Nodup ∧
      c.replies.Pairwise (fun a b => a.createdAt ≤ b.createdAt))
    (hf : heightBs p.blocks < fuel) :
    postDocToObject (updatePostDoc (emptyStore : Store α) p).1 fuel =
      ⟨t, p.blocks, p.comments⟩ := by
  have hroot : "" ∉ treeIds p.blocks := (List.nodup_cons.mp hb).1
  have hnd : (treeIds p.blocks).Nodup := (List.nodup_cons.mp hb).2
  rw [updatePostDoc_empty p hb hc (fun c hcm => (hr c hcm).1)]
  rw [postDocToObject]
  dsimp only
  simp only [Option.getD_some]
  have hblocks : blocksDocToArray
      (⟨some (("", p.blocks.map Block.clientId) :: orderEntries p.blocks),
        some (dataEntries p.blocks)⟩ : BlocksDoc α) "" fuel = p.blocks := by
    apply blocksDocToArray_decode fuel p.blocks "" _ hf
    · simp [alookup]
    · exact canonical_order_lookup p.blocks hroot hnd
    · exact canonical_data_lookup p.blocks hnd
  rw [hblocks]
  rw [commentsDocToArray_decode p.comments (fun c hcm => (hr c hcm).2)]
  rw [ht]
  rfl

/-- C1 counterexample: the tree
`[{a, attrs 1}, {b, attrs 2, children [{a, attrs 3}]}]` has unique ids in
every single order list (the spec's stated well-formedness), yet the
shared flat content map holds only the last write for `a`, so the decoded
first block carries attributes `3` instead of `1`: the round trip fails
without global id uniqueness. -/
theorem claim_c1_counterexample :
    PerListUnique dupPost.blocks ∧
    firstAttrs dupPost.blocks = some 1 ∧
    firstAttrs (postDocToObject
      (updatePostDoc (emptyStore : Store Nat) dupPost).1 3).blocks =
        some 3 := by
  refine ⟨?_, rfl, ?_⟩
  · constructor
    · simp +decide [dupPost, Block.clientId]
    · have htb : treeBlocks dupPost.blocks =
          [Block.mk "a" 1 [], Block.mk "b" 2 [Block.mk "a" 3 []],
            Block.mk "a" 3 []] := by
        simp [dupPost, treeBlocks, Block.innerBlocks]
      intro b hb
      rw [htb] at hb
      simp only [List.mem_cons, List.mem_singleton, List.not_mem_nil] at hb
      rcases hb with rfl | rfl | rfl | hb
      · simp +decide [Block.innerBlocks, Block.clientId]
      · simp +decide [Block.innerBlocks, Block.clientId]
      · simp +decide [Block.innerBlocks, Block.clientId]
      · exact hb.elim
  · have hstore : (updatePostDoc (emptyStore : Store Nat) dupPost).1 =
        ⟨some "t",
          some ⟨some [("", ["a", "b"]), ("a", []), ("b", ["a"])],
            some [("a", ⟨"a", 3⟩), ("b", ⟨"b", 2⟩)]⟩,
          some []⟩ := by
      rw [updatePostDoc]
      simp +decide [emptyStore, emptyBlocksDoc, dupPost, updateBlocksDoc,
        updateBlocksEach, updateCommentsDoc, simpleDiffArray,
        commonPrefixLen, spliceList, aset, alookup, adelete, ahas,
        Block.clientId, Block.data, Block.attrs, Block.innerBlocks]
    rw [hstore]
    decide

/-- C1 witness: the amended round trip at a concrete two-level post. -/
theorem claim_c1_roundtrip_witness :
    postDocToObject (updatePostDoc (emptyStore : Store Nat)
        ⟨some "hello", [.mk "x" 1 [.mk "y" 2 []]],
          [⟨"c1", "note", "hi", 5, "open", 0, 2, "u", "U",
            [⟨"r1", "re", 3, "v", "V"⟩, ⟨"r2", "re2", 7, "w", "W"⟩]⟩]⟩).1 3 =
      ⟨"hello", [.mk "x" 1 [.mk "y" 2 []]],
        [⟨"c1", "note", "hi", 5, "open", 0, 2, "u", "U",
          [⟨"r1", "re", 3, "v", "V"⟩, ⟨"r2", "re2", 7, "w", "W"⟩]⟩]⟩ := by
  apply claim_c1_roundtrip
  · rfl
  · have htid : treeIds [Block.mk "x" (1 : Nat) [Block.mk "y" 2 []]] =
        ["x", "y"] := by
      simp [treeIds, treeBlocks, Block.innerBlocks, Block.clientId]
    show ("" :: treeIds [Block.mk "x" (1 : Nat) [Block.mk "y" 2 []]]).Nodup
    rw [htid]
    decide
  · decide
  · decide
  · show heightBs [Block.mk "x" (1 : Nat) [Block.mk "y" 2 []]] < 3
    simp [heightBs, Block.innerBlocks]

/-- C6 (amended): for a post whose block ids are globally unique across
the tree (and distinct from the root key), whose comment ids are unique
and whose reply ids are unique per comment, re-encoding the unchanged
post over the store just produced by encoding it into the empty store
performs zero writes and leaves the store unchanged. -/
theorem claim_c6_second_encode {α : Type} [DecidableEq α] (p : Post α)
    (hb : ("" :: treeIds p.blocks).Nodup)
    (hc : (p.comments.map Comment._id).Nodup)
    (hr : ∀ c ∈ p.comments, (c.replies.map Reply._id).Nodup) :
    updatePostDoc (updatePostDoc (emptyStore : Store α) p).1 p =
      ((updatePostDoc (emptyStore : Store α) p).1, 0) := by
  have hroot : "" ∉ treeIds p.blocks := (List.nodup_cons.mp hb).1
  have hnd : (treeIds p.blocks).Nodup := (List.nodup_cons.mp hb).2
  rw [updatePostDoc_empty p hb hc hr]
  rw [updatePostDoc]
  dsimp only
  rw [if_pos rfl]
  have hbl := (updateBlocks_second (sizeOf p.blocks)).1 p.blocks ""
    (("", p.blocks.map Block.clientId) :: orderEntries p.blocks)
    (dataEntries p.blocks) le_rfl (by simp [alookup])
    (canonical_order_lookup p.blocks hroot hnd)
    (canonical_data_lookup p.blocks hnd)
  rw [hbl]
  dsimp only
  have hcm := updateComments_second p.comments (p.comments.map commentEntry)
    (fun c hcm => alookup_map_of_mem Comment._id
      (fun c => (commentEntry c).2) p.comments c hcm hc)
    hr
  rw [hcm]
  simp

/-- C6 witness: re-encoding an unchanged concrete post writes nothing. -/
theorem claim_c6_second_encode_witness :
    updatePostDoc (updatePostDoc (emptyStore : Store Nat)
        ⟨some "hello", [.mk "x" 1 [.mk "y" 2 []]],
          [⟨"c1", "note", "hi", 5, "open", 0, 2, "u", "U",
            [⟨"r1", "re", 3, "v", "V"⟩]⟩]⟩).1
      ⟨some "hello", [.mk "x" 1 [.mk "y" 2 []]],
        [⟨"c1", "note", "hi", 5, "open", 0, 2, "u", "U",
          [⟨"r1", "re", 3, "v", "V"⟩]⟩]⟩ =
      ((updatePostDoc (emptyStore : Store Nat)
        ⟨some "hello", [.mk "x" 1 [.mk "y" 2 []]],
          [⟨"c1", "note", "hi", 5, "open", 0, 2, "u", "U",
            [⟨"r1", "re", 3, "v", "V"⟩]⟩]⟩).1, 0) := by
  apply claim_c6_second_encode
  · have htid : treeIds [Block.mk "x" (1 : Nat) [Block.mk "y" 2 []]] =
        ["x", "y"] := by
      simp [treeIds, treeBlocks, Block.innerBlocks, Block.clientId]
    show ("" :: treeIds [Block.mk "x" (1 : Nat) [Block.mk "y" 2 []]]).Nodup
    rw [htid]
    decide
  · decide
  · decide

/-- C6 counterexample: for the per-order-list-unique tree `dupPost` (the
id `a` under two parents with different attributes), the second encoding
pass performs two content-map writes — each occurrence of `a` finds the
other's attributes stored and rewrites the shared entry — so re-encoding
an unchanged tree is not write-free without global id uniqueness. -/
theorem claim_c6_counterexample :
    PerListUnique dupPost.blocks ∧
    (updatePostDoc (updatePostDoc (emptyStore : Store Nat) dupPost).1
      dupPost).2 = 2 := by
  constructor
  · constructor
    · simp +decide [dupPost, Block.clientId]
    · have htb : treeBlocks dupPost.blocks =
          [Block.mk "a" 1 [], Block.mk "b" 2 [Block.mk "a" 3 []],
            Block.mk "a" 3 []] := by
        simp [dupPost, treeBlocks, Block.innerBlocks]
      intro b hb
      rw [htb] at hb
      simp only [List.mem_cons, List.mem_singleton, List.not_mem_nil] at hb
      rcases hb with rfl | rfl | rfl | hb
      · simp +decide [Block.innerBlocks, Block.clientId]
      · simp +decide [Block.innerBlocks, Block.clientId]
      · simp +decide [Block.innerBlocks, Block.clientId]
      · exact hb.elim
  · have hstore : (updatePostDoc (emptyStore : Store Nat) dupPost).1 =
        ⟨some "t",
          some ⟨some [("", ["a", "b"]), ("a", []), ("b", ["a"])],
            some [("a", ⟨"a", 3⟩), ("b", ⟨"b", 2⟩)]⟩,
          some []⟩ := by
      rw [updatePostDoc]
      simp +decide [emptyStore, emptyBlocksDoc, dupPost, updateBlocksDoc,
        updateBlocksEach, updateCommentsDoc, simpleDiffArray,
        commonPrefixLen, spliceList, aset, alookup, adelete, ahas,
        Block.clientId, Block.data, Block.attrs, Block.innerBlocks]
    rw [hstore]
    rw [updatePostDoc]
    simp +decide [dupPost, updateBlocksDoc,
      updateBlocksEach, updateCommentsDoc, simpleDiffArray,
      commonPrefixLen, spliceList, aset, alookup, adelete, ahas,
      Block.clientId, Block.data, Block.attrs, Block.innerBlocks]
